import Mathlib

/-!
Verification development for the drive-reorganization backend
(`routes/ai_organizer.py`).  The Python source is shallowly embedded:
Python strings are modelled as `List Char` where character-level behaviour
matters (splitting, stripping, JSON decoding) and as `String` elsewhere;
remote-service failures (exceptions raised by backend calls) are modelled
by explicit failure oracles carried in the state; fallible operations
return `Option`.
-/

/-! ## Python string primitives on `List Char` -/

/-- ASCII whitespace recognised by Python's `str.split()` / `str.strip()`
(space, tab, newline, carriage return, vertical tab, form feed). -/
def isPyWs (c : Char) : Bool :=
  c = ' ' || c = '\t' || c = '\n' || c = '\r' || c = '\x0b' || c = '\x0c'

/-- Whitespace recognised by the JSON grammar (`json.loads`). -/
def isJWs (c : Char) : Bool :=
  c = ' ' || c = '\t' || c = '\n' || c = '\r'

/-- `str.strip()`: remove leading and trailing whitespace. -/
def pyStrip (cs : List Char) : List Char :=
  (cs.dropWhile isPyWs).rdropWhile isPyWs

/-- `str.strip()` at `String` level (used where the source strips path
segments). -/
def pyStripS (s : String) : String :=
  ⟨pyStrip s.data⟩

/-- Helper for `pySplit`: `acc` holds the (reversed) current word. -/
def pySplitAux : List Char → List Char → List (List Char)
  | [], acc => if acc = [] then [] else [acc.reverse]
  | c :: cs, acc =>
    if isPyWs c then
      if acc = [] then pySplitAux cs [] else acc.reverse :: pySplitAux cs []
    else pySplitAux cs (c :: acc)

/-- `str.split()` with no argument: split on runs of whitespace,
discarding empty tokens. -/
def pySplit (cs : List Char) : List (List Char) :=
  pySplitAux cs []

/-- `" ".join(words)`. -/
def joinWords : List (List Char) → List Char
  | [] => []
  | [w] => w
  | w :: ws => w ++ ' ' :: joinWords ws

/-! ## Content Sampler (`extract_file_content`)

The function downloads the file to a named temporary file created with
`delete=False`, then branches on the MIME type.  `units` stands for the
textual units the parser yields (PDF pages / DOCX paragraphs, each the
text that `.split()` is applied to).  `downloadOk` / `parseOk` model
whether the remote download resp. the PDF/DOCX parsing raises an
exception (any exception is caught and downgraded to `""`).  The second
component of the result records whether the temporary file is still on
disk when the function returns. -/

def pdfMime : String := "application/pdf"

def docxMime : String :=
  "application/vnd.openxmlformats-officedocument.wordprocessingml.document"

/-- The page/paragraph loop: extend `ws` with the unit's words and stop
as soon as 200 words have been accumulated. -/
def collectWordsAux : List (List Char) → List (List Char) → List (List Char)
  | [], ws => ws
  | u :: us, ws =>
    let ws2 := ws ++ pySplit u
    if 200 ≤ ws2.length then ws2 else collectWordsAux us ws2

/-- `" ".join(words[:200]).strip()` as produced by both supported
branches. -/
def sampleText (units : List (List Char)) : List Char :=
  pyStrip (joinWords ((collectWordsAux units []).take 200))

/-- `extract_file_content`, returning the extracted text together with a
flag telling whether the staging temporary file (created with
`delete=False`) remains on disk at return. -/
def extract_file_content (size : Nat) (mimeType : String)
    (units : List (List Char)) (downloadOk parseOk : Bool) :
    List Char × Bool :=
  if 10000000 < size then ([], false)
  else if downloadOk = false then ([], true)
  else if mimeType = pdfMime then
    if parseOk = false then ([], true)
    else (sampleText units, false)
  else if mimeType = docxMime then
    if parseOk = false then ([], true)
    else (sampleText units, false)
  else ([], false)

/-! ## JSON decoding (`json.loads`)

A fuel-indexed recursive-descent parser for the JSON grammar as accepted
by Python's `json.loads` (strict mode): values are `null`, booleans,
numbers, strings with escape sequences, arrays and objects; whitespace
is `' '`, `'\t'`, `'\n'`, `'\r'`; raw control characters inside string
literals are rejected.  Numbers are modelled as integers (the payloads
exchanged by this backend contain only strings). -/

inductive JValue where
  | jnull : JValue
  | jbool : Bool → JValue
  | jnum : Int → JValue
  | jstr : List Char → JValue
  | jarr : List JValue → JValue
  | jobj : List (List Char × JValue) → JValue
deriving Repr

/-- Skip JSON whitespace. -/
def dropWs (cs : List Char) : List Char := cs.dropWhile isJWs

def hexVal (c : Char) : Option Nat :=
  if '0' ≤ c ∧ c ≤ '9' then some (c.toNat - '0'.toNat)
  else if 'a' ≤ c ∧ c ≤ 'f' then some (c.toNat - 'a'.toNat + 10)
  else if 'A' ≤ c ∧ c ≤ 'F' then some (c.toNat - 'A'.toNat + 10)
  else none

def escChar (c : Char) : Option Char :=
  if c = '"' then some '"'
  else if c = '\\' then some '\\'
  else if c = '/' then some '/'
  else if c = 'b' then some '\x08'
  else if c = 'f' then some '\x0c'
  else if c = 'n' then some '\n'
  else if c = 'r' then some '\r'
  else if c = 't' then some '\t'
  else none

/-- Parse the body of a string literal (the opening quote already
consumed); returns the decoded contents and the rest after the closing
quote. -/
def parseStr : Nat → List Char → Option (List Char × List Char)
  | 0, _ => none
  | _ + 1, [] => none
  | f + 1, c :: cs =>
    if c = '"' then some ([], cs)
    else if c = '\\' then
      match cs with
      | [] => none
      | e :: cs2 =>
        if e = 'u' then
          match cs2 with
          | a :: b :: c3 :: d :: cs3 =>
            match hexVal a, hexVal b, hexVal c3, hexVal d with
            | some ha, some hb, some hc, some hd =>
              match parseStr f cs3 with
              | some (s, r) =>
                some (Char.ofNat (((ha * 16 + hb) * 16 + hc) * 16 + hd) :: s, r)
              | none => none
            | _, _, _, _ => none
          | _ => none
        else
          match escChar e with
          | some ec =>
            match parseStr f cs2 with
            | some (s, r) => some (ec :: s, r)
            | none => none
          | none => none
    else if c.toNat < 32 then none
    else
      match parseStr f cs with
      | some (s, r) => some (c :: s, r)
      | none => none

def isDigitCh (c : Char) : Bool := '0' ≤ c && c ≤ '9'

def natOfDigits (ds : List Char) : Nat :=
  ds.foldl (fun n c => n * 10 + (c.toNat - '0'.toNat)) 0

/-- Parse an (integer) JSON number. -/
def parseNum (cs : List Char) : Option (Int × List Char) :=
  match cs with
  | '-' :: rest =>
    let ds := rest.takeWhile isDigitCh
    if ds = [] then none
    else some (-(natOfDigits ds : Int), rest.dropWhile isDigitCh)
  | _ =>
    let ds := cs.takeWhile isDigitCh
    if ds = [] then none
    else some ((natOfDigits ds : Int), cs.dropWhile isDigitCh)

mutual

/-- Parse one JSON value (leading whitespace allowed). -/
def parseJ : Nat → List Char → Option (JValue × List Char)
  | 0, _ => none
  | f + 1, cs =>
    match dropWs cs with
    | [] => none
    | c :: rest =>
      if c = '"' then
        match parseStr f rest with
        | some (s, r) => some (JValue.jstr s, r)
        | none => none
      else if c = '[' then
        match dropWs rest with
        | ']' :: r => some (JValue.jarr [], r)
        | cs2 =>
          match parseItems f cs2 with
          | some (vs, r) => some (JValue.jarr vs, r)
          | none => none
      else if c = '\x7b' then
        match dropWs rest with
        | '\x7d' :: r => some (JValue.jobj [], r)
        | cs2 =>
          match parseMembers f cs2 with
          | some (ms, r) => some (JValue.jobj ms, r)
          | none => none
      else if c = 't' then
        match rest with
        | 'r' :: 'u' :: 'e' :: r => some (JValue.jbool true, r)
        | _ => none
      else if c = 'f' then
        match rest with
        | 'a' :: 'l' :: 's' :: 'e' :: r => some (JValue.jbool false, r)
        | _ => none
      else if c = 'n' then
        match rest with
        | 'u' :: 'l' :: 'l' :: r => some (JValue.jnull, r)
        | _ => none
      else if c = '-' || isDigitCh c then
        match parseNum (c :: rest) with
        | some (n, r) => some (JValue.jnum n, r)
        | none => none
      else none

/-- Parse the items of a non-empty array, up to and including the
closing bracket. -/
def parseItems : Nat → List Char → Option (List JValue × List Char)
  | 0, _ => none
  | f + 1, cs =>
    match parseJ f cs with
    | none => none
    | some (v, r) =>
      match dropWs r with
      | ',' :: r2 =>
        match parseItems f r2 with
        | some (vs, r3) => some (v :: vs, r3)
        | none => none
      | ']' :: r2 => some ([v], r2)
      | _ => none

/-- Parse the members of a non-empty object, up to and including the
closing brace. -/
def parseMembers : Nat → List Char → Option (List (List Char × JValue) × List Char)
  | 0, _ => none
  | f + 1, cs =>
    match dropWs cs with
    | '"' :: r0 =>
      match parseStr f r0 with
      | some (k, r1) =>
        match dropWs r1 with
        | ':' :: r2 =>
          match parseJ f r2 with
          | some (v, r3) =>
            match dropWs r3 with
            | ',' :: r4 =>
              match parseMembers f r4 with
              | some (ms, r5) => some ((k, v) :: ms, r5)
              | none => none
            | '\x7d' :: r4 => some ([(k, v)], r4)
            | _ => none
          | none => none
        | _ => none
      | none => none
    | _ => none

end

/-- `json.loads`: decode one JSON value; trailing data other than
whitespace is an error (modelled as `none`, standing for
`json.JSONDecodeError`). -/
def jsonLoads (cs : List Char) : Option JValue :=
  match parseJ (cs.length + 1) cs with
  | some (v, r) => if dropWs r = [] then some v else none
  | none => none

/-! ## Suggestion Client (`get_ai_suggestions`)

The completion-service call is modelled by its outcome: `.error` when
the call (or reading the reply) raises, `.ok raw` when it yields a reply
text.  The client strips the reply, removes a leading fenced-code-block
marker (`content[7:-3]` after a ```json prefix, `content[3:-3]` after a
bare ``` prefix), decodes with `json.loads`, and catches every exception,
returning the decoded value on success and `[]` on any failure. -/

/-- Python slice `cs[a:-b]` (for `a`, `b ≥ 0`). -/
def pySlice (cs : List Char) (a b : Nat) : List Char :=
  (cs.take (cs.length - b)).drop a

/-- The fenced-code-block normalization applied to the stripped reply. -/
def stripFences (cs : List Char) : List Char :=
  if "```json".data.isPrefixOf cs then pySlice cs 7 3
  else if "```".data.isPrefixOf cs then pySlice cs 3 3
  else cs

/-- Normalization followed by decoding, as performed on a reply text. -/
def normDecode (raw : List Char) : Option JValue :=
  jsonLoads (stripFences (pyStrip raw))

/-- `get_ai_suggestions`: the whole body runs inside `try/except`, with
`json.JSONDecodeError` and any other exception both downgraded to `[]`.
The function therefore always returns normally (`Except.ok`); the
returned value is whatever `json.loads` produced (the code performs no
check that it is an array). -/
def get_ai_suggestions (reply : Except String (List Char)) :
    Except String JValue :=
  match reply with
  | .error _ => .ok (JValue.jarr [])
  | .ok raw =>
    match normDecode raw with
    | none => .ok (JValue.jarr [])
    | some v => .ok v

/-! ## Enriched files, suggestions, positional identifier rebinding -/

structure EnrichedFile where
  id : String
  name : String
  ftype : String
  content : String
deriving Repr, DecidableEq, Inhabited

structure Suggestion where
  id : String
  currentName : String
  newName : String
  newFolder : Option String
  stype : String
  reason : String
deriving Repr, DecidableEq, Inhabited

/-- `for i, suggestion in enumerate(suggestions): if i < len(files):
suggestion['id'] = files[i]['id']` — the in-place positional rebinding
performed by `ai_rename_preview` and `batch_organize`. -/
def rebindIds (files : List EnrichedFile) (suggestions : List Suggestion) :
    List Suggestion :=
  (List.range suggestions.length).map fun i =>
    let s := suggestions.getD i default
    if i < files.length then { s with id := (files.getD i default).id } else s

/-! ## Storage backend model (Google Drive service)

The backend is a list of `(id, file)` entries.  Remote calls can raise;
an exception raised by a given call is modelled by membership of the
call's arguments in the corresponding failure-oracle list carried in the
state (the oracles are environment behaviour, fixed for one invocation).
`queryLog` records every folder-search `files().list` call issued by the
resolver and `createLog` every `files().create` call, so that "no query
was issued" / "at most one creation call per (name, parent) pair" are
statable. -/

structure DriveFile where
  name : String
  mimeType : String
  parents : List String
  trashed : Bool
deriving Repr, DecidableEq, Inhabited

structure DriveState where
  files : List (String × DriveFile)
  nextId : Nat
  queryFailList : List (String × Option String)
  createFailList : List (String × Option String)
  getFailList : List String
  updateFailList : List String
  listFailList : List String
  deleteFailList : List String
  queryLog : List (String × Option String)
  createLog : List (String × Option String)
deriving Repr, Inhabited

def folderMimeType : String := "application/vnd.google-apps.folder"

/-- Python truthiness of an optional id string (`if parent_id:`). -/
def optTruthy : Option String → Option String
  | some s => if s = "" then none else some s
  | none => none

/-- The folder search issued by `create_folder_if_not_exists`:
`name='{nm}' and mimeType='application/vnd.google-apps.folder' and
trashed=false`, plus `'{p}' in parents` when a (truthy) parent is given.
Returns the matching ids in backend order. -/
def folderQuery (files : List (String × DriveFile)) (nm : String)
    (parent : Option String) : List String :=
  (files.filter fun pr =>
    pr.2.name = nm && pr.2.mimeType = folderMimeType && pr.2.trashed = false &&
      (match parent with
       | some p => pr.2.parents.contains p
       | none => true)).map (·.1)

/-- `create_folder_if_not_exists`: query for an existing folder, reuse
the first match, otherwise create.  Any exception (failing list call or
failing create call) is caught and yields `none`. -/
def create_folder_if_not_exists (st : DriveState) (nm : String)
    (parent : Option String) : DriveState × Option String :=
  let pid := optTruthy parent
  let st1 := { st with queryLog := st.queryLog ++ [(nm, pid)] }
  if (nm, pid) ∈ st.queryFailList then (st1, none)
  else
    match folderQuery st.files nm pid with
    | fid :: _ => (st1, some fid)
    | [] =>
      let st2 := { st1 with createLog := st1.createLog ++ [(nm, pid)] }
      if (nm, pid) ∈ st.createFailList then (st2, none)
      else
        let newId := "f" ++ toString st.nextId
        let folder : DriveFile :=
          { name := nm, mimeType := folderMimeType,
            parents := pid.toList, trashed := false }
        ({ st2 with files := st2.files ++ [(newId, folder)],
                    nextId := st.nextId + 1 }, some newId)

/-- The segment loop of `create_nested_folders`.  The outcome is
`some cur` when the loop runs to completion with final parent `cur`
(which is the original `parent_id`, possibly `None`, when every segment
was empty) and `none` for the early `return None` taken when a segment's
resolution fails or yields a falsy id. -/
def nestedGo : DriveState → Option String → List String →
    DriveState × Option (Option String)
  | st, cur, [] => (st, some cur)
  | st, cur, seg :: rest =>
    let s := pyStripS seg
    if s = "" then nestedGo st cur rest
    else
      let p := create_folder_if_not_exists st s cur
      match p.2 with
      | some fid => if fid = "" then (p.1, none) else nestedGo p.1 (some fid) rest
      | none => (p.1, none)

/-- `folder_path.split('/')` — Python's split with an explicit
separator: empty segments are kept, and splitting the empty string
yields `[""]`. -/
def splitSlashAux : List Char → List Char → List String
  | [], acc => [⟨acc.reverse⟩]
  | c :: cs, acc =>
    if c = '/' then (⟨acc.reverse⟩ : String) :: splitSlashAux cs []
    else splitSlashAux cs (c :: acc)

def splitSlash (s : String) : List String :=
  splitSlashAux s.data []

/-- `create_nested_folders(service, folder_path, parent_id=None)`. -/
def create_nested_folders (st : DriveState) (path : String)
    (parent : Option String) : DriveState × Option String :=
  if path = "" then (st, parent)
  else
    match nestedGo st parent (splitSlash path) with
    | (st1, some cur) => (st1, cur)
    | (st1, none) => (st1, none)

/-! ## Plan Executor (`execute_rename`) -/

structure ExecResult where
  rid : String
  status : String
  message : String
deriving Repr, DecidableEq, Inhabited

/-- `service.files().get(fileId=..., fields='parents')` followed by
`file_info.get('parents', [])`; a missing file or a failing call raises
(modelled as `none`). -/
def getParents (st : DriveState) (fid : String) : Option (List String) :=
  if fid ∈ st.getFailList then none
  else
    match st.files.lookup fid with
    | some f => some f.parents
    | none => none

/-- `service.files().update(...)`: rename, and when `addParent` is
given, remove `removeParents` and add the new parent. -/
def updateFile (st : DriveState) (fid : String) (newName : String)
    (addParent : Option String) (removeParents : List String) :
    Option DriveState :=
  if fid ∈ st.updateFailList then none
  else
    match st.files.lookup fid with
    | none => none
    | some f =>
      let ps1 := f.parents.filter fun q => !(removeParents.contains q)
      let ps2 :=
        match addParent with
        | some a => if ps1.contains a then ps1 else ps1 ++ [a]
        | none => f.parents
      let f2 := { f with name := newName, parents := ps2 }
      some { st with files := st.files.map fun pr =>
               if pr.1 = fid then (pr.1, f2) else pr }

/-- One iteration of the suggestion loop of `execute_rename`: returns
the evolved state, the `ExecutionResult` recorded for this suggestion,
and the parents recorded into the touched-folders accumulator (empty
when fetching the parents raised, since `touched_folders.update` is
only reached after a successful fetch). -/
def processSuggestion (st : DriveState) (sg : Suggestion) :
    DriveState × ExecResult × List String :=
  match getParents st sg.id with
  | none => (st, ⟨sg.id, "error", "Error"⟩, [])
  | some prev =>
    match optTruthy sg.newFolder with
    | some pth =>
      let c := create_nested_folders st pth none
      match optTruthy c.2 with
      | some fid =>
        match updateFile c.1 sg.id sg.newName (some fid) prev with
        | some st2 =>
          (st2, ⟨sg.id, "success",
                 "Renamed to \"" ++ sg.newName ++ "\" and moved to \"" ++
                   pth ++ "\""⟩, prev)
        | none => (c.1, ⟨sg.id, "error", "Error"⟩, prev)
      | none =>
        match updateFile c.1 sg.id sg.newName none [] with
        | some st2 =>
          (st2, ⟨sg.id, "partial",
                 "Renamed to \"" ++ sg.newName ++
                   "\" but folder creation failed"⟩, prev)
        | none => (c.1, ⟨sg.id, "error", "Error"⟩, prev)
    | none =>
      match updateFile st sg.id sg.newName none [] with
      | some st2 =>
        (st2, ⟨sg.id, "success", "Renamed to \"" ++ sg.newName ++ "\""⟩, prev)
      | none => (st, ⟨sg.id, "error", "Error"⟩, prev)

/-- Phase 1: process every suggestion in order, collecting the results
and, per suggestion, the parent lists recorded into `touched_folders`. -/
def phase1 : DriveState → List Suggestion →
    DriveState × List ExecResult × List (List String)
  | st, [] => (st, [], [])
  | st, sg :: rest =>
    let p := processSuggestion st sg
    let q := phase1 p.1 rest
    (q.1, p.2.1 :: q.2.1, p.2.2 :: q.2.2)

/-- The touched-folders accumulator: a Python `set` fed by
`touched_folders.update(previous_parents)`; modelled as the
insertion-ordered deduplication of all recorded parents (the claims
proved below do not depend on iteration order). -/
def touchedOf (fetched : List (List String)) : List String :=
  fetched.flatten.foldl (fun acc x => if acc.contains x then acc else acc ++ [x]) []

/-- The cleanup listing: `'{folder_id}' in parents and trashed=false`
with `pageSize=1`. -/
def listChildrenPage (st : DriveState) (fid : String) : List String :=
  ((st.files.filter fun pr =>
      pr.2.parents.contains fid && pr.2.trashed = false).map (·.1)).take 1

/-- `service.files().delete(fileId=folder_id)`. -/
def deleteFile (st : DriveState) (fid : String) : DriveState :=
  { st with files := st.files.filter fun pr => pr.1 ≠ fid }

/-- One iteration of phase 2 for a touched folder id: list its
non-trashed children; delete it when the listing is empty; any exception
(failing list call, failing delete, missing folder) is caught and the
folder is skipped.  The second component reports a performed deletion. -/
def cleanupStep (st : DriveState) (fid : String) :
    DriveState × Option String :=
  if fid ∈ st.listFailList then (st, none)
  else if listChildrenPage st fid = [] then
    if fid ∈ st.deleteFailList then (st, none)
    else
      match st.files.lookup fid with
      | none => (st, none)
      | some _ => (deleteFile st fid, some fid)
  else (st, none)

/-- Phase 2: the empty-folder cleanup loop over the touched folders,
returning the folders actually deleted. -/
def phase2 : DriveState → List String → DriveState × List String
  | st, [] => (st, [])
  | st, f :: fs =>
    let p := cleanupStep st f
    let q := phase2 p.1 fs
    (q.1, (match p.2 with | some x => x :: q.2 | none => q.2))

structure ExecOutcome where
  finalState : DriveState
  results : List ExecResult
  fetched : List (List String)
  touched : List String
  deleted : List String
deriving Repr

/-- `execute_rename`: phase 1 over all suggestions, then the
empty-folder cleanup over the touched-folders accumulator. -/
def execute_rename (st : DriveState) (suggestions : List Suggestion) :
    ExecOutcome :=
  let p := phase1 st suggestions
  let touched := touchedOf p.2.2
  let q := phase2 p.1 touched
  ⟨q.1, p.2.1, p.2.2, touched, q.2⟩

/-! ## Auxiliary definitions used by the statements below -/

/-- Whitespace-delimited word count of a text. -/
def wordCount (cs : List Char) : Nat := (pySplit cs).length

/-- A reply wrapped in a fenced code block with the `json` language
tag. -/
def fenceJson (t : List Char) : List Char :=
  "```json\n".data ++ t ++ "\n```".data

/-- A reply wrapped in a fenced code block without a language tag. -/
def fenceBare (t : List Char) : List Char :=
  "```\n".data ++ t ++ "\n```".data

/-- A sequence of folder-path resolutions performed within one executor
invocation. -/
def resolveAll (st : DriveState) : List (String × Option String) → DriveState
  | [] => st
  | p :: ps => resolveAll (create_nested_folders st p.1 p.2).1 ps

/-- A backend state with no files, no pending failures and empty call
logs (the state at the start of an executor invocation). -/
def emptyDrive : DriveState :=
  { files := [], nextId := 0, queryFailList := [], createFailList := [],
    getFailList := [], updateFailList := [], listFailList := [],
    deleteFailList := [], queryLog := [], createLog := [] }

/-- A backend holding a folder `Reports` that lives under the folder
`x`, i.e. *not* at the backend root. -/
def exampleDrive7 : DriveState :=
  { emptyDrive with
    files := [("x", ⟨"X", folderMimeType, [], false⟩),
              ("r1", ⟨"Reports", folderMimeType, ["x"], false⟩)] }

/-- A backend holding one file `f1` whose sole parent is the folder
`p`, which is otherwise empty. -/
def exampleDrive1 : DriveState :=
  { emptyDrive with
    files := [("f1", ⟨"a.txt", "text/plain", ["p"], false⟩),
              ("p", ⟨"P", folderMimeType, [], false⟩)] }

/-- A backend where creating a folder named `NewFolder` at the root
raises a backend error. -/
def exampleDrive8 : DriveState :=
  { emptyDrive with
    files := [("f1", ⟨"a.txt", "text/plain", ["p"], false⟩)],
    createFailList := [("NewFolder", none)] }

/-! ## Lemmas about Python splitting and stripping -/

/-- A word produced by `str.split()`: non-empty and whitespace-free. -/
def goodWord (w : List Char) : Prop :=
  w ≠ [] ∧ ∀ c ∈ w, isPyWs c = false

theorem pySplitAux_all_ws_nil :
    ∀ run : List Char, (∀ c ∈ run, isPyWs c = true) →
      pySplitAux run [] = [] := by
  intro run h
  induction run with
  | nil => simp [pySplitAux]
  | cons c cs ih =>
    have hc : isPyWs c = true := h c (by simp)
    simp [pySplitAux, hc]
    exact ih fun d hd => h d (by simp [hd])

theorem pySplitAux_good :
    ∀ (cs acc : List Char), (∀ c ∈ acc, isPyWs c = false) →
      ∀ w ∈ pySplitAux cs acc, goodWord w := by
  intro cs
  induction cs with
  | nil =>
    intro acc hacc w hw
    by_cases h : acc = []
    · simp [pySplitAux, h] at hw
    · simp [pySplitAux, h] at hw
      subst hw
      refine ⟨by simpa using h, ?_⟩
      intro c hc
      exact hacc c (by simpa using hc)
  | cons c cs ih =>
    intro acc hacc w hw
    by_cases hc : isPyWs c = true
    · by_cases h : acc = []
      · simp [pySplitAux, hc, h] at hw
        exact ih [] (by simp) w hw
      · simp [pySplitAux, hc, h] at hw
        rcases hw with hw | hw
        · subst hw
          refine ⟨by simpa using h, ?_⟩
          intro d hd
          exact hacc d (by simpa using hd)
        · exact ih [] (by simp) w hw
    · simp [pySplitAux, hc] at hw
      refine ih (c :: acc) ?_ w hw
      intro d hd
      rcases List.mem_cons.mp hd with h | h
      · subst h; simpa using hc
      · exact hacc d h

theorem pySplitAux_word_append :
    ∀ (w cs acc : List Char), (∀ c ∈ w, isPyWs c = false) →
      pySplitAux (w ++ cs) acc = pySplitAux cs (w.reverse ++ acc) := by
  intro w
  induction w with
  | nil => intro cs acc _; simp
  | cons c w ih =>
    intro cs acc h
    have hc : isPyWs c = false := h c (by simp)
    show pySplitAux (c :: (w ++ cs)) acc = _
    simp only [pySplitAux, hc, Bool.false_eq_true, if_false]
    rw [ih cs (c :: acc) fun d hd => h d (by simp [hd])]
    simp

theorem pySplit_joinWords :
    ∀ ws : List (List Char), (∀ w ∈ ws, goodWord w) →
      pySplit (joinWords ws) = ws := by
  intro ws
  induction ws with
  | nil => intro _; simp [joinWords, pySplit, pySplitAux]
  | cons w ws ih =>
    intro h
    have hw : goodWord w := h w (by simp)
    cases ws with
    | nil =>
      have : pySplit (joinWords [w]) = pySplitAux [] w.reverse := by
        simpa [joinWords, pySplit] using
          pySplitAux_word_append w [] [] hw.2
      rw [this]
      have hrev : w.reverse ≠ [] := by simpa using hw.1
      simp [pySplitAux, hrev]
    | cons w2 ws2 =>
      have step : pySplit (joinWords (w :: w2 :: ws2)) =
          pySplitAux (' ' :: joinWords (w2 :: ws2)) w.reverse := by
        simpa [joinWords, pySplit] using
          pySplitAux_word_append w (' ' :: joinWords (w2 :: ws2)) [] hw.2
      rw [step]
      have hrev : w.reverse ≠ [] := by simpa using hw.1
      have hsp : isPyWs ' ' = true := by decide
      simp only [pySplitAux, hsp, if_pos rfl, hrev, if_neg hrev, List.reverse_reverse]
      have := ih fun u hu => h u (by simp [hu])
      simpa [pySplit] using this

theorem pySplitAux_append_ws :
    ∀ (cs run acc : List Char), (∀ c ∈ run, isPyWs c = true) →
      pySplitAux (cs ++ run) acc = pySplitAux cs acc := by
  intro cs
  induction cs with
  | nil =>
    intro run acc h
    by_cases hacc : acc = []
    · subst hacc
      simpa [pySplitAux] using pySplitAux_all_ws_nil run h
    · cases run with
      | nil => simp
      | cons c r =>
        have hc : isPyWs c = true := h c (by simp)
        simp only [List.nil_append, pySplitAux, hc, if_pos rfl, hacc, if_neg hacc]
        rw [pySplitAux_all_ws_nil r fun d hd => h d (by simp [hd])]
        simp [pySplitAux, hacc]
  | cons c cs ih =>
    intro run acc h
    by_cases hc : isPyWs c = true
    · by_cases hacc : acc = [] <;>
        simp [pySplitAux, hc, hacc, ih run [] h]
    · simp [pySplitAux, hc, ih run (c :: acc) h]

theorem pySplit_dropWhile :
    ∀ cs : List Char, pySplit (cs.dropWhile isPyWs) = pySplit cs := by
  intro cs
  induction cs with
  | nil => simp
  | cons c cs ih =>
    by_cases hc : isPyWs c = true
    · rw [List.dropWhile_cons_of_pos (by simpa using hc)]
      rw [ih]
      simp [pySplit, pySplitAux, hc]
    · rw [List.dropWhile_cons_of_neg (by simpa using hc)]

theorem rdropWhile_append_rtakeWhile_eq {α : Type} (p : α → Bool) (l : List α) :
    l.rdropWhile p ++ l.rtakeWhile p = l := by
  rw [List.rdropWhile, List.rtakeWhile, ← List.reverse_append,
    List.takeWhile_append_dropWhile, List.reverse_reverse]

theorem pySplit_pyStrip (cs : List Char) : pySplit (pyStrip cs) = pySplit cs := by
  unfold pyStrip
  rw [← pySplit_dropWhile cs]
  set l := cs.dropWhile isPyWs with hl
  have hdecomp : l.rdropWhile isPyWs ++ l.rtakeWhile isPyWs = l :=
    rdropWhile_append_rtakeWhile_eq isPyWs l
  have hws : ∀ c ∈ l.rtakeWhile isPyWs, isPyWs c = true := by
    intro c hc
    exact List.mem_rtakeWhile_imp hc
  calc pySplit (l.rdropWhile isPyWs)
      = pySplit (l.rdropWhile isPyWs ++ l.rtakeWhile isPyWs) := by
        unfold pySplit
        rw [pySplitAux_append_ws _ _ _ hws]
    _ = pySplit l := by rw [hdecomp]

theorem collectWordsAux_good :
    ∀ (us : List (List Char)) (ws : List (List Char)),
      (∀ w ∈ ws, goodWord w) → ∀ w ∈ collectWordsAux us ws, goodWord w := by
  intro us
  induction us with
  | nil => intro ws h w hw; exact h w hw
  | cons u us ih =>
    intro ws h w hw
    have hgood : ∀ x ∈ ws ++ pySplit u, goodWord x := by
      intro x hx
      rcases List.mem_append.mp hx with h1 | h1
      · exact h x h1
      · exact pySplitAux_good u [] (by simp) x h1
    by_cases hlen : 200 ≤ (ws ++ pySplit u).length
    · simp only [collectWordsAux, hlen, if_pos] at hw
      exact hgood w hw
    · simp only [collectWordsAux, hlen, if_neg hlen] at hw
      exact ih (ws ++ pySplit u) hgood w hw

theorem wordCount_sampleText (units : List (List Char)) :
    wordCount (sampleText units) ≤ 200 := by
  unfold wordCount sampleText
  rw [pySplit_pyStrip]
  have hgood : ∀ w ∈ (collectWordsAux units []).take 200, goodWord w := by
    intro w hw
    exact collectWordsAux_good units [] (by simp) w (List.take_subset 200 _ hw)
  rw [pySplit_joinWords _ hgood]
  exact List.length_take_le 200 (collectWordsAux units [])

/-- Claim C3: for every file identifier and format tag, the Content
Sampler returns a text of at most 200 whitespace-delimited words; it
returns the empty string whenever the format tag is neither the PDF nor
the DOCX format, and whenever the reported size exceeds 10 MB. -/
theorem claim3_sampler_bounds (size : Nat) (mimeType : String)
    (units : List (List Char)) (dOk pOk : Bool) :
    wordCount (extract_file_content size mimeType units dOk pOk).1 ≤ 200 ∧
    (mimeType ≠ pdfMime → mimeType ≠ docxMime →
      (extract_file_content size mimeType units dOk pOk).1 = []) ∧
    (10000000 < size → (extract_file_content size mimeType units dOk pOk).1 = []) := by
  refine ⟨?_, ?_, ?_⟩
  · unfold extract_file_content
    split
    · simp [wordCount, pySplit, pySplitAux]
    · split
      · simp [wordCount, pySplit, pySplitAux]
      · split
        · split
          · simp [wordCount, pySplit, pySplitAux]
          · exact wordCount_sampleText units
        · split
          · split
            · simp [wordCount, pySplit, pySplitAux]
            · exact wordCount_sampleText units
          · simp [wordCount, pySplit, pySplitAux]
  · intro h1 h2
    unfold extract_file_content
    simp only [h1, h2, if_false]
    split
    · rfl
    · split
      · rfl
      · rfl
  · intro h
    unfold extract_file_content
    simp [h]

theorem claim3_witness :
    wordCount (extract_file_content 10000001 "image/png" [['a']] true true).1 ≤ 200 ∧
    (extract_file_content 10000001 "image/png" [['a']] true true).1 = [] ∧
    (extract_file_content 10000001 "image/png" [['a']] true true).1 = [] := by
  have h := claim3_sampler_bounds 10000001 "image/png" [['a']] true true
  exact ⟨h.1, h.2.1 (by decide) (by decide), h.2.2 (by decide)⟩

/-- Claim C9 (counterexample to the claim as stated): when parsing the
downloaded PDF raises an exception, the function returns through the
`except` handler and the staged temporary file is *not* removed. -/
theorem claim9_counterexample :
    (extract_file_content 0 pdfMime [] true false).2 = true := by rfl

/-- Claim C9 (amended): the scoped temporary file is removed before
return on every non-exception exit path (successful PDF/DOCX extraction,
unsupported format, and the size guard, which returns before the file is
staged); but when the download or the parsing raises an exception after
staging, the temporary file is not removed. -/
theorem claim9_temp_release_amended :
    (∀ size mimeType units,
      (extract_file_content size mimeType units true true).2 = false) ∧
    (∀ size units, size ≤ 10000000 →
      (extract_file_content size pdfMime units true false).2 = true ∧
      (extract_file_content size docxMime units true false).2 = true ∧
      (extract_file_content size pdfMime units false true).2 = true) := by
  constructor
  · intro size mimeType units
    unfold extract_file_content
    split
    · rfl
    · simp only [Bool.true_eq_false, if_false]
      split
      · rfl
      · split
        · rfl
        · rfl
  · intro size units h
    have hs : ¬ 10000000 < size := by omega
    refine ⟨?_, ?_, ?_⟩ <;> simp [extract_file_content, hs]

theorem claim9_amended_witness :
    (extract_file_content 5 pdfMime [] true false).2 = true :=
  (claim9_temp_release_amended.2 5 [] (by decide)).1

/-- Claim C2: identifier rebinding is strictly positional — after the
rebinding loop, for every index below both lengths the suggestion at
that index carries the corresponding input entry's identifier (whatever
id the completion service echoed), and suggestions at indices at or
beyond the number of input entries keep their echoed id. -/
theorem claim2_rebind_positional (files : List EnrichedFile)
    (ss : List Suggestion) :
    (rebindIds files ss).length = ss.length ∧
    (∀ i, i < files.length → i < ss.length →
      (rebindIds files ss).getD i default =
        { ss.getD i default with id := (files.getD i default).id }) ∧
    (∀ i, files.length ≤ i →
      (rebindIds files ss).getD i default = ss.getD i default) := by
  refine ⟨by simp [rebindIds], ?_, ?_⟩
  · intro i h1 h2
    unfold rebindIds
    rw [List.getD_eq_getElem?_getD, List.getElem?_map, List.getElem?_range h2]
    simp [h1]
  · intro i h1
    by_cases h2 : i < ss.length
    · unfold rebindIds
      rw [List.getD_eq_getElem?_getD, List.getElem?_map, List.getElem?_range h2]
      have : ¬ i < files.length := by omega
      simp [this]
    · have ha : (rebindIds files ss).getD i default = default := by
        unfold rebindIds
        rw [List.getD_eq_getElem?_getD, List.getElem?_map]
        rw [List.getElem?_eq_none (by simpa using Nat.le_of_not_lt h2)]
        rfl
      have hb : ss.getD i default = default := by
        rw [List.getD_eq_getElem?_getD, List.getElem?_eq_none (Nat.le_of_not_lt h2)]
        rfl
      rw [ha, hb]

theorem claim2_witness :
    (rebindIds [⟨"fileA", "a.txt", "file", ""⟩]
        [⟨"echoed1", "a.txt", "A.txt", none, "file", "r"⟩,
         ⟨"echoed2", "b.txt", "B.txt", none, "file", "r"⟩]).getD 0 default =
      ⟨"fileA", "a.txt", "A.txt", none, "file", "r"⟩ ∧
    (rebindIds [⟨"fileA", "a.txt", "file", ""⟩]
        [⟨"echoed1", "a.txt", "A.txt", none, "file", "r"⟩,
         ⟨"echoed2", "b.txt", "B.txt", none, "file", "r"⟩]).getD 1 default =
      ⟨"echoed2", "b.txt", "B.txt", none, "file", "r"⟩ := by
  constructor
  · exact (claim2_rebind_positional [⟨"fileA", "a.txt", "file", ""⟩]
      [⟨"echoed1", "a.txt", "A.txt", none, "file", "r"⟩,
       ⟨"echoed2", "b.txt", "B.txt", none, "file", "r"⟩]).2.1 0 (by decide) (by decide)
  · exact (claim2_rebind_positional [⟨"fileA", "a.txt", "file", ""⟩]
      [⟨"echoed1", "a.txt", "A.txt", none, "file", "r"⟩,
       ⟨"echoed2", "b.txt", "B.txt", none, "file", "r"⟩]).2.2 1 (by decide)

/-- Claim C4 (counterexample to the claim as stated): a reply whose text
is a top-level JSON object decodes successfully and is returned as-is by
the Suggestion Client — the returned value is not a list (in particular
not the empty list). -/
theorem claim4_counterexample :
    get_ai_suggestions (.ok "\x7b\x7d".data) = .ok (JValue.jobj []) ∧
    (∀ xs, JValue.jobj [] ≠ JValue.jarr xs) := by
  refine ⟨by rfl, ?_⟩
  intro xs h
  cases h

/-- Claim C4 (amended): the Suggestion Client never propagates an
exception — it always returns a value; every service-call failure and
every JSON decode failure yields the empty list; but a reply whose text
decodes to a non-array JSON value (e.g. a top-level object) is returned
as decoded, not as a suggestion list. -/
theorem claim4_no_throw_amended (reply : Except String (List Char)) :
    (∃ v, get_ai_suggestions reply = .ok v) ∧
    (∀ e, reply = .error e → get_ai_suggestions reply = .ok (JValue.jarr [])) ∧
    (∀ raw, reply = .ok raw → normDecode raw = none →
      get_ai_suggestions reply = .ok (JValue.jarr [])) ∧
    (∀ raw v, reply = .ok raw → normDecode raw = some v →
      get_ai_suggestions reply = .ok v) := by
  refine ⟨?_, ?_, ?_, ?_⟩
  · cases reply with
    | error e => exact ⟨JValue.jarr [], rfl⟩
    | ok raw =>
      cases h : normDecode raw with
      | none => exact ⟨JValue.jarr [], by simp [get_ai_suggestions, h]⟩
      | some v => exact ⟨v, by simp [get_ai_suggestions, h]⟩
  · intro e he
    subst he
    rfl
  · intro raw hr h
    subst hr
    simp [get_ai_suggestions, h]
  · intro raw v hr h
    subst hr
    simp [get_ai_suggestions, h]

theorem claim4_amended_witness :
    get_ai_suggestions (.error "service down") = .ok (JValue.jarr []) ∧
    get_ai_suggestions (.ok "not json".data) = .ok (JValue.jarr []) :=
  ⟨(claim4_no_throw_amended (.error "service down")).2.1 "service down" rfl,
   (claim4_no_throw_amended (.ok "not json".data)).2.2.1 "not json".data rfl (by rfl)⟩


/-! ## Parser metatheory -/

theorem parse_mono : ∀ f : Nat,
    (∀ cs out, parseStr f cs = some out → parseStr (f + 1) cs = some out) ∧
    (∀ cs out, parseJ f cs = some out → parseJ (f + 1) cs = some out) ∧
    (∀ cs out, parseItems f cs = some out → parseItems (f + 1) cs = some out) ∧
    (∀ cs out, parseMembers f cs = some out → parseMembers (f + 1) cs = some out) := by
  intro f
  induction f with
  | zero =>
    refine ⟨?_, ?_, ?_, ?_⟩ <;> intro cs out h <;>
      simp [parseStr, parseJ, parseItems, parseMembers] at h
  | succ f ih =>
    obtain ⟨ihS, ihJ, ihI, ihM⟩ := ih
    refine ⟨?_, ?_, ?_, ?_⟩
    · -- parseStr
      intro cs out h
      cases cs with
      | nil => simp [parseStr] at h
      | cons c cs0 =>
        simp only [parseStr] at h ⊢
        by_cases hq : c = '"'
        · rw [if_pos hq] at h ⊢
          exact h
        · rw [if_neg hq] at h ⊢
          by_cases hb : c = '\\'
          · rw [if_pos hb] at h ⊢
            split at h
            · exact absurd h (by simp)
            · rename_i e cs2
              by_cases hu : e = 'u'
              · rw [if_pos hu] at h ⊢
                split at h
                · rename_i a b c3 d cs3
                  split at h
                  · rename_i ha hb2 hc2 hd2
                    cases hS : parseStr f cs3 with
                    | none => rw [hS] at h; exact absurd h (by simp)
                    | some p =>
                      obtain ⟨s, r⟩ := p
                      rw [hS] at h
                      rw [ihS _ _ hS]
                      exact h
                  · exact absurd h (by simp)
                · exact absurd h (by simp)
              · rw [if_neg hu] at h ⊢
                split at h
                · rename_i ec hec
                  cases hS : parseStr f cs2 with
                  | none => rw [hS] at h; exact absurd h (by simp)
                  | some p =>
                    obtain ⟨s, r⟩ := p
                    rw [hS] at h
                    rw [ihS _ _ hS]
                    exact h
                · exact absurd h (by simp)
          · rw [if_neg hb] at h ⊢
            by_cases h32 : c.toNat < 32
            · rw [if_pos h32] at h
              exact absurd h (by simp)
            · rw [if_neg h32] at h ⊢
              cases hS : parseStr f cs0 with
              | none => rw [hS] at h; exact absurd h (by simp)
              | some p =>
                obtain ⟨s, r⟩ := p
                rw [hS] at h
                rw [ihS _ _ hS]
                exact h
    · -- parseJ
      intro cs out h
      rw [parseJ.eq_2] at h
      rw [parseJ.eq_2]
      split at h
      · exact absurd h (by simp)
      · rename_i c rest hdrop
        by_cases hq : c = '"'
        · rw [if_pos hq] at h ⊢
          cases hS : parseStr f rest with
          | none => rw [hS] at h; exact absurd h (by simp)
          | some p =>
            obtain ⟨s, r⟩ := p
            rw [hS] at h
            rw [ihS _ _ hS]
            exact h
        · rw [if_neg hq] at h ⊢
          by_cases hbr : c = '['
          · rw [if_pos hbr] at h ⊢
            split at h
            · exact h
            · cases hI : parseItems f (dropWs rest) with
              | none => rw [hI] at h; exact absurd h (by simp)
              | some p =>
                obtain ⟨vs, r⟩ := p
                rw [hI] at h
                rw [ihI _ _ hI]
                exact h
          · rw [if_neg hbr] at h ⊢
            by_cases hob : c = '\x7b'
            · rw [if_pos hob] at h ⊢
              split at h
              · exact h
              · cases hM : parseMembers f (dropWs rest) with
                | none => rw [hM] at h; exact absurd h (by simp)
                | some p =>
                  obtain ⟨ms, r⟩ := p
                  rw [hM] at h
                  rw [ihM _ _ hM]
                  exact h
            · rw [if_neg hob] at h ⊢
              by_cases ht : c = 't'
              · rw [if_pos ht] at h ⊢
                split at h
                · exact h
                · exact absurd h (by simp)
              · rw [if_neg ht] at h ⊢
                by_cases hf : c = 'f'
                · rw [if_pos hf] at h ⊢
                  split at h
                  · exact h
                  · exact absurd h (by simp)
                · rw [if_neg hf] at h ⊢
                  by_cases hn : c = 'n'
                  · rw [if_pos hn] at h ⊢
                    split at h
                    · exact h
                    · exact absurd h (by simp)
                  · rw [if_neg hn] at h ⊢
                    by_cases hnum : (c = '-' || isDigitCh c) = true
                    · rw [if_pos hnum] at h ⊢
                      split at h
                      · exact h
                      · exact absurd h (by simp)
                    · rw [if_neg hnum] at h
                      exact absurd h (by simp)
    · -- parseItems
      intro cs out h
      rw [parseItems.eq_2] at h
      rw [parseItems.eq_2]
      cases hJ : parseJ f cs with
      | none => rw [hJ] at h; exact absurd h (by simp)
      | some vr =>
        obtain ⟨v, r⟩ := vr
        rw [hJ] at h
        dsimp only at h
        rw [ihJ _ _ hJ]
        dsimp only
        split at h
        · rename_i r2 heq
          cases hI : parseItems f r2 with
          | none => rw [hI] at h; exact absurd h (by simp)
          | some p =>
            obtain ⟨vs, r3⟩ := p
            rw [hI] at h
            rw [ihI _ _ hI]
            exact h
        · exact h
        · exact absurd h (by simp)
    · -- parseMembers
      intro cs out h
      rw [parseMembers.eq_2] at h
      rw [parseMembers.eq_2]
      split at h
      · rename_i r0 hdrop
        cases hS : parseStr f r0 with
        | none => rw [hS] at h; exact absurd h (by simp)
        | some p =>
          obtain ⟨k, r1⟩ := p
          rw [hS] at h
          dsimp only at h
          rw [ihS _ _ hS]
          dsimp only
          split at h
          · rename_i r2 hd1
            cases hJv : parseJ f r2 with
            | none => rw [hJv] at h; exact absurd h (by simp)
            | some p2 =>
              obtain ⟨v, r3⟩ := p2
              rw [hJv] at h
              dsimp only at h
              rw [ihJ _ _ hJv]
              dsimp only
              split at h
              · rename_i r4 hd2
                cases hM : parseMembers f r4 with
                | none => rw [hM] at h; exact absurd h (by simp)
                | some p3 =>
                  obtain ⟨ms, r5⟩ := p3
                  rw [hM] at h
                  rw [ihM _ _ hM]
                  exact h
              · exact h
              · exact absurd h (by simp)
          · exact absurd h (by simp)
      · exact absurd h (by simp)

theorem parseJ_mono_le {f g : Nat} (hfg : f ≤ g) (cs : List Char)
    (out : JValue × List Char) (h : parseJ f cs = some out) :
    parseJ g cs = some out := by
  induction hfg with
  | refl => exact h
  | step _ ih2 =>
    rename_i m _
    exact (parse_mono m).2.1 cs out ih2

theorem dropWhile_append_cons {α : Type} (p : α → Bool) :
    ∀ (cs ys : List α) (c : α) (rest : List α),
      cs.dropWhile p = c :: rest → (cs ++ ys).dropWhile p = c :: (rest ++ ys) := by
  intro cs
  induction cs with
  | nil => intro ys c rest h; simp at h
  | cons a cs0 ih =>
    intro ys c rest h
    by_cases ha : p a = true
    · rw [List.dropWhile_cons_of_pos ha] at h
      rw [List.cons_append, List.dropWhile_cons_of_pos ha]
      exact ih ys c rest h
    · rw [List.dropWhile_cons_of_neg (by simpa using ha)] at h
      cases h
      rw [List.cons_append, List.dropWhile_cons_of_neg (by simpa using ha)]

theorem takeWhile_append_notin {α : Type} (p : α → Bool) :
    ∀ (a ys : List α), (∀ y ∈ ys, p y = false) →
      (a ++ ys).takeWhile p = a.takeWhile p := by
  intro a
  induction a with
  | nil =>
    intro ys hys
    cases ys with
    | nil => simp
    | cons y ys0 =>
      simp only [List.nil_append, List.takeWhile_nil]
      rw [List.takeWhile_cons_of_neg (by simp [hys y (by simp)])]
  | cons x a0 ih =>
    intro ys hys
    by_cases hx : p x = true
    · rw [List.cons_append, List.takeWhile_cons_of_pos hx, List.takeWhile_cons_of_pos hx,
        ih ys hys]
    · rw [List.cons_append, List.takeWhile_cons_of_neg (by simpa using hx),
        List.takeWhile_cons_of_neg (by simpa using hx)]

theorem dropWhile_append_notin {α : Type} (p : α → Bool) :
    ∀ (a ys : List α), (∀ y ∈ ys, p y = false) →
      (a ++ ys).dropWhile p = a.dropWhile p ++ ys := by
  intro a
  induction a with
  | nil =>
    intro ys hys
    cases ys with
    | nil => simp
    | cons y ys0 =>
      simp only [List.nil_append, List.dropWhile_nil]
      rw [List.dropWhile_cons_of_neg (by simp [hys y (by simp)])]
  | cons x a0 ih =>
    intro ys hys
    by_cases hx : p x = true
    · rw [List.cons_append, List.dropWhile_cons_of_pos hx, List.dropWhile_cons_of_pos hx,
        ih ys hys]
    · rw [List.cons_append, List.dropWhile_cons_of_neg (by simpa using hx),
        List.dropWhile_cons_of_neg (by simpa using hx)]
      simp

theorem jws_not_digit {c : Char} (h : isJWs c = true) : isDigitCh c = false := by
  simp only [isJWs, Bool.or_eq_true, decide_eq_true_eq] at h
  rcases h with ((h | h) | h) | h <;> subst h <;> decide

theorem parseNum_wsext (ys : List Char) (hys : ∀ c ∈ ys, isJWs c = true) :
    ∀ cs n r, parseNum cs = some (n, r) → parseNum (cs ++ ys) = some (n, r ++ ys) := by
  have hnd : ∀ y ∈ ys, isDigitCh y = false := fun y hy => jws_not_digit (hys y hy)
  intro cs n r h
  cases cs with
  | nil => simp [parseNum] at h
  | cons c cs1 =>
    by_cases hm : c = '-'
    · subst hm
      have e1 : parseNum ('-' :: cs1) =
          (if cs1.takeWhile isDigitCh = [] then none
           else some (-(natOfDigits (cs1.takeWhile isDigitCh) : Int),
             cs1.dropWhile isDigitCh)) := rfl
      have e2 : parseNum ('-' :: (cs1 ++ ys)) =
          (if (cs1 ++ ys).takeWhile isDigitCh = [] then none
           else some (-(natOfDigits ((cs1 ++ ys).takeWhile isDigitCh) : Int),
             (cs1 ++ ys).dropWhile isDigitCh)) := rfl
      rw [e1] at h
      rw [List.cons_append, e2]
      rw [takeWhile_append_notin isDigitCh cs1 ys hnd,
        dropWhile_append_notin isDigitCh cs1 ys hnd]
      split at h
      · exact absurd h (by simp)
      · rename_i hds
        rw [if_neg hds]
        cases h
        rfl
    · have hsh : parseNum (c :: cs1) =
          (if (c :: cs1).takeWhile isDigitCh = [] then none
           else some ((natOfDigits ((c :: cs1).takeWhile isDigitCh) : Int),
             (c :: cs1).dropWhile isDigitCh)) := by
        simp only [parseNum]
        split
        · rename_i heq
          exact absurd (List.cons.injEq .. ▸ heq) (by simp [hm])
        · rfl
      have hsh2 : parseNum ((c :: cs1) ++ ys) =
          (if ((c :: cs1) ++ ys).takeWhile isDigitCh = [] then none
           else some ((natOfDigits (((c :: cs1) ++ ys).takeWhile isDigitCh) : Int),
             ((c :: cs1) ++ ys).dropWhile isDigitCh)) := by
        simp only [parseNum, List.cons_append]
        split
        · rename_i heq
          exact absurd (List.cons.injEq .. ▸ heq) (by simp [hm])
        · rfl
      rw [hsh] at h
      rw [hsh2]
      rw [takeWhile_append_notin isDigitCh _ ys hnd,
        dropWhile_append_notin isDigitCh _ ys hnd]
      split at h
      · exact absurd h (by simp)
      · rename_i hds
        rw [if_neg hds]
        cases h
        rfl

theorem parseJ_nil (f : Nat) : parseJ f [] = none := by
  cases f <;> rfl

theorem parseItems_nil (f : Nat) : parseItems f [] = none := by
  cases f with
  | zero => rfl
  | succ f => rw [parseItems.eq_2, parseJ_nil f]

theorem parseMembers_nil (f : Nat) : parseMembers f [] = none := by
  cases f <;> rfl

theorem dropWs_append_cons (cs ys : List Char) (c : Char) (rest : List Char)
    (h : dropWs cs = c :: rest) : dropWs (cs ++ ys) = c :: (rest ++ ys) :=
  dropWhile_append_cons isJWs cs ys c rest h

theorem parse_wsext (ys : List Char) (hys : ∀ c ∈ ys, isJWs c = true) : ∀ f : Nat,
    (∀ cs s r, parseStr f cs = some (s, r) → parseStr f (cs ++ ys) = some (s, r ++ ys)) ∧
    (∀ cs v r, parseJ f cs = some (v, r) → parseJ f (cs ++ ys) = some (v, r ++ ys)) ∧
    (∀ cs vs r, parseItems f cs = some (vs, r) → parseItems f (cs ++ ys) = some (vs, r ++ ys)) ∧
    (∀ cs ms r, parseMembers f cs = some (ms, r) →
      parseMembers f (cs ++ ys) = some (ms, r ++ ys)) := by
  intro f
  induction f with
  | zero =>
    refine ⟨?_, ?_, ?_, ?_⟩ <;> intro cs a b h <;>
      simp [parseStr, parseJ, parseItems, parseMembers] at h
  | succ f ih =>
    obtain ⟨ihS, ihJ, ihI, ihM⟩ := ih
    refine ⟨?_, ?_, ?_, ?_⟩
    · -- parseStr
      intro cs s r h
      cases cs with
      | nil => simp [parseStr] at h
      | cons c cs0 =>
        rw [List.cons_append]
        simp only [parseStr] at h ⊢
        by_cases hq : c = '"'
        · rw [if_pos hq] at h ⊢
          cases h
          rfl
        · rw [if_neg hq] at h ⊢
          by_cases hb : c = '\\'
          · rw [if_pos hb] at h ⊢
            cases cs0 with
            | nil => simp at h
            | cons e cs2 =>
              simp only [List.cons_append]
              dsimp only at h ⊢
              by_cases hu : e = 'u'
              · rw [if_pos hu] at h ⊢
                split at h
                · rename_i a b c3 d cs3
                  simp only [List.cons_append]
                  split at h
                  · cases hS : parseStr f cs3 with
                    | none => rw [hS] at h; exact absurd h (by simp)
                    | some p =>
                      obtain ⟨s1, r1⟩ := p
                      rw [hS] at h
                      dsimp only at h
                      rw [ihS cs3 s1 r1 hS]
                      dsimp only
                      cases h
                      rfl
                  · exact absurd h (by simp)
                · exact absurd h (by simp)
              · rw [if_neg hu] at h ⊢
                split at h
                · cases hS : parseStr f cs2 with
                  | none => rw [hS] at h; exact absurd h (by simp)
                  | some p =>
                    obtain ⟨s1, r1⟩ := p
                    rw [hS] at h
                    dsimp only at h
                    rw [ihS cs2 s1 r1 hS]
                    dsimp only
                    cases h
                    rfl
                · exact absurd h (by simp)
          · rw [if_neg hb] at h ⊢
            by_cases h32 : c.toNat < 32
            · rw [if_pos h32] at h
              exact absurd h (by simp)
            · rw [if_neg h32] at h ⊢
              cases hS : parseStr f cs0 with
              | none => rw [hS] at h; exact absurd h (by simp)
              | some p =>
                obtain ⟨s1, r1⟩ := p
                rw [hS] at h
                dsimp only at h
                rw [ihS cs0 s1 r1 hS]
                dsimp only
                cases h
                rfl
    · -- parseJ
      intro cs v r h
      rw [parseJ.eq_2] at h
      rw [parseJ.eq_2]
      cases hd : dropWs cs with
      | nil => rw [hd] at h; simp at h
      | cons c rest =>
        rw [hd] at h
        rw [dropWs_append_cons cs ys c rest hd]
        dsimp only at h ⊢
        by_cases hq : c = '"'
        · rw [if_pos hq] at h ⊢
          cases hS : parseStr f rest with
          | none => rw [hS] at h; exact absurd h (by simp)
          | some p =>
            obtain ⟨s1, r1⟩ := p
            rw [hS] at h
            dsimp only at h
            rw [ihS rest s1 r1 hS]
            dsimp only
            cases h
            rfl
        · rw [if_neg hq] at h ⊢
          by_cases hbr : c = '['
          · rw [if_pos hbr] at h ⊢
            cases hd2 : dropWs rest with
            | nil =>
              rw [hd2] at h
              dsimp only at h
              rw [parseItems_nil f] at h
              exact absurd h (by simp)
            | cons c2 r2 =>
              rw [hd2] at h
              rw [dropWs_append_cons rest ys c2 r2 hd2]
              split at h
              · rename_i rr heq
                rw [List.cons.injEq] at heq
                obtain ⟨hc2, hr2⟩ := heq
                subst hc2
                subst hr2
                split
                · rename_i rr2 heq2
                  rw [List.cons.injEq] at heq2
                  cases h
                  rw [← heq2.2]
                · rename_i hne
                  exact (hne (r2 ++ ys) rfl).elim
              · rename_i hne1
                cases hI : parseItems f (c2 :: r2) with
                | none => rw [hI] at h; exact absurd h (by simp)
                | some p =>
                  obtain ⟨vs1, r3⟩ := p
                  rw [hI] at h
                  dsimp only at h
                  have hIa := ihI (c2 :: r2) vs1 r3 hI
                  rw [List.cons_append] at hIa
                  split
                  · rename_i rr heq2
                    rw [List.cons.injEq] at heq2
                    exact (hne1 r2 (by rw [heq2.1])).elim
                  · rw [hIa]
                    cases h
                    rfl
          · rw [if_neg hbr] at h ⊢
            by_cases hob : c = '\x7b'
            · rw [if_pos hob] at h ⊢
              cases hd2 : dropWs rest with
              | nil =>
                rw [hd2] at h
                dsimp only at h
                rw [parseMembers_nil f] at h
                exact absurd h (by simp)
              | cons c2 r2 =>
                rw [hd2] at h
                rw [dropWs_append_cons rest ys c2 r2 hd2]
                split at h
                · rename_i rr heq
                  rw [List.cons.injEq] at heq
                  obtain ⟨hc2, hr2⟩ := heq
                  subst hc2
                  subst hr2
                  split
                  · rename_i rr2 heq2
                    rw [List.cons.injEq] at heq2
                    cases h
                    rw [← heq2.2]
                  · rename_i hne
                    exact (hne (r2 ++ ys) rfl).elim
                · rename_i hne1
                  cases hM : parseMembers f (c2 :: r2) with
                  | none => rw [hM] at h; exact absurd h (by simp)
                  | some p =>
                    obtain ⟨ms1, r3⟩ := p
                    rw [hM] at h
                    dsimp only at h
                    have hMa := ihM (c2 :: r2) ms1 r3 hM
                    rw [List.cons_append] at hMa
                    split
                    · rename_i rr heq2
                      rw [List.cons.injEq] at heq2
                      exact (hne1 r2 (by rw [heq2.1])).elim
                    · rw [hMa]
                      cases h
                      rfl
            · rw [if_neg hob] at h ⊢
              by_cases ht : c = 't'
              · rw [if_pos ht] at h ⊢
                split at h
                · simp only [List.cons_append]
                  cases h
                  rfl
                · exact absurd h (by simp)
              · rw [if_neg ht] at h ⊢
                by_cases hf2 : c = 'f'
                · rw [if_pos hf2] at h ⊢
                  split at h
                  · simp only [List.cons_append]
                    cases h
                    rfl
                  · exact absurd h (by simp)
                · rw [if_neg hf2] at h ⊢
                  by_cases hn : c = 'n'
                  · rw [if_pos hn] at h ⊢
                    split at h
                    · simp only [List.cons_append]
                      cases h
                      rfl
                    · exact absurd h (by simp)
                  · rw [if_neg hn] at h ⊢
                    by_cases hnum : (c = '-' || isDigitCh c) = true
                    · rw [if_pos hnum] at h ⊢
                      cases hN : parseNum (c :: rest) with
                      | none => rw [hN] at h; exact absurd h (by simp)
                      | some p =>
                        obtain ⟨n1, r1⟩ := p
                        rw [hN] at h
                        dsimp only at h
                        have hNa := parseNum_wsext ys hys (c :: rest) n1 r1 hN
                        rw [List.cons_append] at hNa
                        rw [hNa]
                        cases h
                        rfl
                    · rw [if_neg hnum] at h
                      exact absurd h (by simp)
    · -- parseItems
      intro cs vs r h
      rw [parseItems.eq_2] at h
      rw [parseItems.eq_2]
      cases hJv : parseJ f cs with
      | none => rw [hJv] at h; exact absurd h (by simp)
      | some p =>
        obtain ⟨v1, r1⟩ := p
        rw [hJv] at h
        dsimp only at h
        rw [ihJ cs v1 r1 hJv]
        dsimp only
        cases hd : dropWs r1 with
        | nil => rw [hd] at h; simp at h
        | cons c2 r2 =>
          rw [hd] at h
          rw [dropWs_append_cons r1 ys c2 r2 hd]
          split at h
          · rename_i rr heq
            rw [List.cons.injEq] at heq
            obtain ⟨hc2, hr2⟩ := heq
            subst hc2
            subst hr2
            cases hI : parseItems f r2 with
            | none => rw [hI] at h; exact absurd h (by simp)
            | some p2 =>
              obtain ⟨vs1, r3⟩ := p2
              rw [hI] at h
              dsimp only at h
              split
              · rename_i rr2 heq2
                rw [List.cons.injEq] at heq2
                obtain ⟨-, hr3⟩ := heq2
                rw [← hr3]
                rw [ihI r2 vs1 r3 hI]
                cases h
                rfl
              · rename_i rr2 heq2
                rw [List.cons.injEq] at heq2
                exact absurd heq2.1 (by decide)
              · rename_i hne1 hne2
                exact (hne1 (r2 ++ ys) rfl).elim
          · rename_i rr heq
            rw [List.cons.injEq] at heq
            obtain ⟨hc2, hr2⟩ := heq
            subst hc2
            subst hr2
            split
            · rename_i rr2 heq2
              rw [List.cons.injEq] at heq2
              exact absurd heq2.1 (by decide)
            · rename_i rr2 heq2
              rw [List.cons.injEq] at heq2
              cases h
              rw [← heq2.2]
            · rename_i hne1 hne2
              exact (hne2 (r2 ++ ys) rfl).elim
          · exact absurd h (by simp)
    · -- parseMembers
      intro cs ms r h
      rw [parseMembers.eq_2] at h
      rw [parseMembers.eq_2]
      cases hd : dropWs cs with
      | nil => rw [hd] at h; simp at h
      | cons c0 r0 =>
        rw [hd] at h
        rw [dropWs_append_cons cs ys c0 r0 hd]
        split at h
        · rename_i rr heq
          rw [List.cons.injEq] at heq
          obtain ⟨hc0, hr0⟩ := heq
          subst hc0
          subst hr0
          cases hS : parseStr f r0 with
          | none => rw [hS] at h; exact absurd h (by simp)
          | some p =>
            obtain ⟨k, r1⟩ := p
            rw [hS] at h
            dsimp only at h
            split
            · rename_i rr2 heq2
              rw [List.cons.injEq] at heq2
              obtain ⟨-, hr2⟩ := heq2
              rw [← hr2]
              rw [ihS r0 k r1 hS]
              dsimp only
              cases hd1 : dropWs r1 with
              | nil => rw [hd1] at h; simp at h
              | cons c1 r2 =>
                rw [hd1] at h
                rw [dropWs_append_cons r1 ys c1 r2 hd1]
                split at h
                · rename_i rr3 heq3
                  rw [List.cons.injEq] at heq3
                  obtain ⟨hc1, hr3⟩ := heq3
                  subst hc1
                  subst hr3
                  cases hJv : parseJ f r2 with
                  | none => rw [hJv] at h; exact absurd h (by simp)
                  | some p2 =>
                    obtain ⟨v1, r3⟩ := p2
                    rw [hJv] at h
                    dsimp only at h
                    split
                    · rename_i rr4 heq4
                      rw [List.cons.injEq] at heq4
                      obtain ⟨-, hr4⟩ := heq4
                      rw [← hr4]
                      rw [ihJ r2 v1 r3 hJv]
                      dsimp only
                      cases hd2 : dropWs r3 with
                      | nil => rw [hd2] at h; simp at h
                      | cons c3 r4 =>
                        rw [hd2] at h
                        rw [dropWs_append_cons r3 ys c3 r4 hd2]
                        split at h
                        · rename_i rr5 heq5
                          rw [List.cons.injEq] at heq5
                          obtain ⟨hc3, hr5⟩ := heq5
                          subst hc3
                          subst hr5
                          cases hM : parseMembers f r4 with
                          | none => rw [hM] at h; exact absurd h (by simp)
                          | some p3 =>
                            obtain ⟨ms1, r5⟩ := p3
                            rw [hM] at h
                            dsimp only at h
                            split
                            · rename_i rr6 heq6
                              rw [List.cons.injEq] at heq6
                              obtain ⟨-, hr6⟩ := heq6
                              rw [← hr6]
                              rw [ihM r4 ms1 r5 hM]
                              cases h
                              rfl
                            · rename_i rr6 heq6
                              rw [List.cons.injEq] at heq6
                              exact absurd heq6.1 (by decide)
                            · rename_i hne3 hne4
                              exact (hne3 (r4 ++ ys) rfl).elim
                        · rename_i rr5 heq5
                          rw [List.cons.injEq] at heq5
                          obtain ⟨hc3, hr5⟩ := heq5
                          subst hc3
                          subst hr5
                          split
                          · rename_i rr6 heq6
                            rw [List.cons.injEq] at heq6
                            exact absurd heq6.1 (by decide)
                          · rename_i rr6 heq6
                            rw [List.cons.injEq] at heq6
                            cases h
                            rw [← heq6.2]
                          · rename_i hne3 hne4
                            exact (hne4 (r4 ++ ys) rfl).elim
                        · exact absurd h (by simp)
                    · rename_i hne2
                      exact (hne2 (r2 ++ ys) rfl).elim
                · rename_i hne2
                  exact absurd h (by simp)
            · rename_i hne1
              exact (hne1 (r0 ++ ys) rfl).elim
        · rename_i hne1
          exact absurd h (by simp)

theorem parseJ_ws_head (f : Nat) (c : Char) (cs : List Char) (hc : isJWs c = true) :
    parseJ f (c :: cs) = parseJ f cs := by
  cases f with
  | zero => rfl
  | succ f =>
    rw [parseJ.eq_2, parseJ.eq_2]
    have : dropWs (c :: cs) = dropWs cs := by
      unfold dropWs
      exact List.dropWhile_cons_of_pos hc
    rw [this]

theorem parseJ_jarr_head (f : Nat) (cs : List Char) (xs : List JValue) (r : List Char)
    (h : parseJ f cs = some (JValue.jarr xs, r)) : ∃ m, dropWs cs = '[' :: m := by
  cases f with
  | zero => simp [parseJ] at h
  | succ f =>
    rw [parseJ.eq_2] at h
    cases hd : dropWs cs with
    | nil => rw [hd] at h; simp at h
    | cons c rest =>
      rw [hd] at h
      by_cases hbr : c = '['
      · exact ⟨rest, by rw [hbr]⟩
      · exfalso
        dsimp only at h
        by_cases hq : c = '"'
        · rw [if_pos hq] at h
          repeat' split at h
          all_goals simp_all
        · rw [if_neg hq, if_neg hbr] at h
          repeat' split at h
          all_goals simp_all

theorem dropWs_eq_nil_append {r ys : List Char} (hr : dropWs r = [])
    (hys : ∀ c ∈ ys, isJWs c = true) : dropWs (r ++ ys) = [] := by
  unfold dropWs at hr ⊢
  rw [List.dropWhile_eq_nil_iff] at hr ⊢
  intro x hx
  rcases List.mem_append.mp hx with h1 | h1
  · exact hr x h1
  · exact hys x h1

theorem jsonLoads_pad (t : List Char) (v : JValue)
    (h : jsonLoads t = some v) : jsonLoads ('\n' :: (t ++ ['\n'])) = some v := by
  unfold jsonLoads at h
  cases hp : parseJ (t.length + 1) t with
  | none => rw [hp] at h; exact absurd h (by simp)
  | some p =>
    obtain ⟨v1, r⟩ := p
    rw [hp] at h
    dsimp only at h
    by_cases hrem : dropWs r = []
    · rw [if_pos hrem] at h
      cases h
      have h1 : parseJ (t.length + 3) t = some (v, r) :=
        parseJ_mono_le (by omega) t (v, r) hp
      have h2 : parseJ (t.length + 3) (t ++ ['\n']) = some (v, r ++ ['\n']) :=
        (parse_wsext ['\n'] (by intro c hc; simp at hc; subst hc; decide)
          (t.length + 3)).2.1 t v r h1
      unfold jsonLoads
      have hlen : ('\n' :: (t ++ ['\n'])).length + 1 = t.length + 3 := by
        simp
      rw [hlen]
      rw [parseJ_ws_head (t.length + 3) '\n' (t ++ ['\n']) (by decide)]
      rw [h2]
      dsimp only
      rw [dropWs_eq_nil_append hrem
        (by intro c hc; simp at hc; subst hc; decide)]
      rfl
    · rw [if_neg hrem] at h
      exact absurd h (by simp)

theorem stripFences_fenceJson (t : List Char) :
    pyStrip (fenceJson t) = fenceJson t ∧
    stripFences (fenceJson t) = '\n' :: (t ++ ['\n']) := by
  have e0 : fenceJson t =
      '`' :: '`' :: '`' :: 'j' :: 's' :: 'o' :: 'n' :: '\n' ::
        (t ++ ['\n', '`', '`', '`']) := rfl
  have e1 : fenceJson t =
      ('`' :: '`' :: '`' :: 'j' :: 's' :: 'o' :: 'n' :: '\n' ::
        (t ++ ['\n', '`', '`'])) ++ ['`'] := by
    rw [e0]; simp
  have hstrip : pyStrip (fenceJson t) = fenceJson t := by
    unfold pyStrip
    have hd : (fenceJson t).dropWhile isPyWs = fenceJson t := by
      rw [e0]
      exact List.dropWhile_cons_of_neg (by decide)
    rw [hd, e1]
    rw [List.rdropWhile_concat_neg isPyWs _ '`' (by decide)]
  refine ⟨hstrip, ?_⟩
  have hpref : "```json".data.isPrefixOf (fenceJson t) = true := by
    rw [e0]; rfl
  unfold stripFences
  rw [hpref]
  rw [if_pos rfl]
  have e2 : fenceJson t = "```json\n".data ++ (t ++ "\n```".data) := by
    rw [e0]; simp
  unfold pySlice
  have hlen : (fenceJson t).length - 3 = "```json\n".data.length + (t.length + 1) := by
    rw [e0]; simp; omega
  rw [hlen, e2, List.take_append]
  have ht1 : List.take (t.length + 1) (t ++ "\n```".data) =
      t ++ ['\n'] := by
    have : t.length + 1 = t.length + 1 := rfl
    rw [List.take_append 1]
    rfl
  rw [ht1]
  have e3 : "```json\n".data ++ (t ++ ['\n']) =
      "```json".data ++ ('\n' :: (t ++ ['\n'])) := by simp
  rw [e3]
  have h7 : (7 : Nat) = "```json".data.length := rfl
  rw [h7, List.drop_left]

theorem stripFences_fenceBare (t : List Char) :
    pyStrip (fenceBare t) = fenceBare t ∧
    stripFences (fenceBare t) = '\n' :: (t ++ ['\n']) := by
  have e0 : fenceBare t =
      '`' :: '`' :: '`' :: '\n' :: (t ++ ['\n', '`', '`', '`']) := rfl
  have e1 : fenceBare t =
      ('`' :: '`' :: '`' :: '\n' :: (t ++ ['\n', '`', '`'])) ++ ['`'] := by
    rw [e0]; simp
  have hstrip : pyStrip (fenceBare t) = fenceBare t := by
    unfold pyStrip
    have hd : (fenceBare t).dropWhile isPyWs = fenceBare t := by
      rw [e0]
      exact List.dropWhile_cons_of_neg (by decide)
    rw [hd, e1]
    rw [List.rdropWhile_concat_neg isPyWs _ '`' (by decide)]
  refine ⟨hstrip, ?_⟩
  have hpref : "```json".data.isPrefixOf (fenceBare t) = false := by
    rw [e0]; rfl
  have hpref2 : "```".data.isPrefixOf (fenceBare t) = true := by
    rw [e0]; rfl
  unfold stripFences
  rw [hpref, hpref2]
  rw [if_neg (by simp), if_pos rfl]
  have e2 : fenceBare t = "```\n".data ++ (t ++ "\n```".data) := by
    rw [e0]; simp
  unfold pySlice
  have hlen : (fenceBare t).length - 3 = "```\n".data.length + (t.length + 1) := by
    rw [e0]; simp; omega
  rw [hlen, e2, List.take_append]
  have ht1 : List.take (t.length + 1) (t ++ "\n```".data) = t ++ ['\n'] := by
    rw [List.take_append 1]
    rfl
  rw [ht1]
  have e3 : "```\n".data ++ (t ++ ['\n']) = "```".data ++ ('\n' :: (t ++ ['\n'])) := by
    simp
  rw [e3]
  have h3 : (3 : Nat) = "```".data.length := rfl
  rw [h3, List.drop_left]

theorem jws_imp_pyws {c : Char} (h : isJWs c = true) : isPyWs c = true := by
  simp only [isJWs, Bool.or_eq_true, decide_eq_true_eq] at h
  rcases h with ((h | h) | h) | h <;> subst h <;> decide

theorem pyStrip_eq_self_dropWhile {t : List Char} (h : pyStrip t = t) :
    t.dropWhile isPyWs = t := by
  have h1 : (pyStrip t).length ≤ (t.dropWhile isPyWs).length := by
    unfold pyStrip
    exact (List.rdropWhile_prefix isPyWs (t.dropWhile isPyWs)).length_le
  have h2 : (t.dropWhile isPyWs).length ≤ t.length :=
    (List.dropWhile_suffix isPyWs).length_le
  have h3 : (t.dropWhile isPyWs).length = t.length := by
    rw [h] at h1
    omega
  exact (List.dropWhile_suffix isPyWs).eq_of_length h3

theorem normDecode_unfenced (t : List Char) (xs : List JValue)
    (hstrip : pyStrip t = t) (ht : jsonLoads t = some (JValue.jarr xs)) :
    normDecode t = some (JValue.jarr xs) := by
  have hdpy : t.dropWhile isPyWs = t := pyStrip_eq_self_dropWhile hstrip
  obtain ⟨m, hm⟩ : ∃ m, dropWs t = '[' :: m := by
    unfold jsonLoads at ht
    cases hp : parseJ (t.length + 1) t with
    | none => rw [hp] at ht; exact absurd ht (by simp)
    | some p =>
      obtain ⟨v1, r⟩ := p
      rw [hp] at ht
      dsimp only at ht
      by_cases hrem : dropWs r = []
      · rw [if_pos hrem] at ht
        cases ht
        exact parseJ_jarr_head (t.length + 1) t xs r hp
      · rw [if_neg hrem] at ht
        exact absurd ht (by simp)
  have hdt : dropWs t = t := by
    cases t with
    | nil => rfl
    | cons c t0 =>
      have hc : isPyWs c = false := by
        by_contra hcc
        have hcc2 : isPyWs c = true := by
          cases hx : isPyWs c
          · exact absurd hx hcc
          · rfl
        rw [List.dropWhile_cons_of_pos hcc2] at hdpy
        have := (List.dropWhile_suffix (l := t0) isPyWs).length_le
        have hl : (List.dropWhile isPyWs t0).length = t0.length + 1 := by
          rw [hdpy]; rfl
        omega
      have hcj : isJWs c = false := by
        cases hx : isJWs c
        · rfl
        · exact absurd (jws_imp_pyws hx) (by simp [hc])
      unfold dropWs
      exact List.dropWhile_cons_of_neg (by simp [hcj])
  have hteq : t = '[' :: m := by rw [← hdt, hm]
  unfold normDecode
  rw [hstrip]
  have hp1 : "```json".data.isPrefixOf t = false := by rw [hteq]; rfl
  have hp2 : "```".data.isPrefixOf t = false := by rw [hteq]; rfl
  unfold stripFences
  rw [hp1, hp2]
  rw [if_neg (by simp), if_neg (by simp)]
  exact ht

/-- Claim C5: a JSON array text wrapped in a fenced code block — with a
language tag (```json) or without — is normalized and decoded to the
same suggestion list as the unfenced text. (`t` is the array text
itself, i.e. it carries no surrounding whitespace, and decodes to the
array `xs`.) -/
theorem claim5_fenced_decode (t : List Char) (xs : List JValue)
    (hstrip : pyStrip t = t) (ht : jsonLoads t = some (JValue.jarr xs)) :
    normDecode (fenceJson t) = some (JValue.jarr xs) ∧
    normDecode (fenceBare t) = some (JValue.jarr xs) ∧
    normDecode t = some (JValue.jarr xs) := by
  refine ⟨?_, ?_, normDecode_unfenced t xs hstrip ht⟩
  · unfold normDecode
    rw [(stripFences_fenceJson t).1, (stripFences_fenceJson t).2]
    exact jsonLoads_pad t (JValue.jarr xs) ht
  · unfold normDecode
    rw [(stripFences_fenceBare t).1, (stripFences_fenceBare t).2]
    exact jsonLoads_pad t (JValue.jarr xs) ht

theorem claim5_witness :
    normDecode (fenceJson "[]".data) = some (JValue.jarr []) ∧
    normDecode (fenceBare "[]".data) = some (JValue.jarr []) ∧
    normDecode "[]".data = some (JValue.jarr []) :=
  claim5_fenced_decode "[]".data [] (by rfl) (by rfl)

/-! ## Folder Path Resolver and Plan Executor claims -/

/-- Claim C7 (counterexample to the claim as stated): resolving the
single-segment path `Reports` with no `rootParentId` matches the
existing non-trashed folder `r1` named `Reports` even though it lives
under the folder `x` — not under the backend's implicit root — and
issues no create call; the query for the first segment carries no
parent restriction at all. -/
theorem claim7_counterexample :
    (create_nested_folders exampleDrive7 "Reports" none).2 = some "r1" ∧
    (create_nested_folders exampleDrive7 "Reports" none).1.files =
      exampleDrive7.files ∧
    (create_nested_folders exampleDrive7 "Reports" none).1.createLog = [] ∧
    exampleDrive7.files.lookup "r1" =
      some ⟨"Reports", folderMimeType, ["x"], false⟩ ∧
    (⟨"Reports", folderMimeType, ["x"], false⟩ : DriveFile).parents ≠ [] := by
  refine ⟨by rfl, by rfl, by rfl, by rfl, by simp⟩

/-- Claim C7 (amended): the resolve-or-create step queries the backend
for non-trashed folders with exactly the segment's name and — only when
a (truthy) current parent is present — restricted to that parent; when
no parent is given (the first segment with `rootParentId` absent) the
query carries no parent clause and may match a same-named folder under
any parent.  A found folder's identifier (the first match) is reused
and no create call is issued. -/
theorem claim7_resolve_or_create_amended (st : DriveState) (nm : String)
    (parent : Option String)
    (hq : (nm, optTruthy parent) ∉ st.queryFailList) :
    (∀ fid, fid ∈ folderQuery st.files nm (optTruthy parent) ↔
      ∃ f, (fid, f) ∈ st.files ∧ f.name = nm ∧ f.mimeType = folderMimeType ∧
        f.trashed = false ∧
        (∀ q, optTruthy parent = some q → f.parents.contains q = true)) ∧
    (∀ fid rest, folderQuery st.files nm (optTruthy parent) = fid :: rest →
      create_folder_if_not_exists st nm parent =
        ({ st with queryLog := st.queryLog ++ [(nm, optTruthy parent)] },
          some fid)) := by
  constructor
  · intro fid
    constructor
    · intro hmem
      simp only [folderQuery, List.mem_map] at hmem
      obtain ⟨pr, hpr, hfst⟩ := hmem
      rw [List.mem_filter] at hpr
      obtain ⟨hin, hcond⟩ := hpr
      simp only [Bool.and_eq_true, decide_eq_true_eq] at hcond
      refine ⟨pr.2, ?_, hcond.1.1.1, hcond.1.1.2, hcond.1.2, ?_⟩
      · rw [← hfst]
        simpa using hin
      · intro q hq2
        have := hcond.2
        rw [hq2] at this
        exact this
    · intro hex
      obtain ⟨f, hin, hnm, hmime, htr, hpar⟩ := hex
      simp only [folderQuery, List.mem_map]
      refine ⟨(fid, f), ?_, rfl⟩
      rw [List.mem_filter]
      refine ⟨hin, ?_⟩
      simp only [Bool.and_eq_true, decide_eq_true_eq]
      refine ⟨⟨⟨hnm, hmime⟩, htr⟩, ?_⟩
      cases hp : optTruthy parent with
      | none => rfl
      | some q => exact hpar q hp
  · intro fid rest hfq
    unfold create_folder_if_not_exists
    rw [if_neg hq, hfq]

theorem claim7_amended_witness :
    ("r1" ∈ folderQuery exampleDrive7.files "Reports" (optTruthy none) ↔
      ∃ f, ("r1", f) ∈ exampleDrive7.files ∧ f.name = "Reports" ∧
        f.mimeType = folderMimeType ∧ f.trashed = false ∧
        (∀ q, optTruthy none = some q → f.parents.contains q = true)) ∧
    create_folder_if_not_exists exampleDrive7 "Reports" none =
      ({ exampleDrive7 with
          queryLog := exampleDrive7.queryLog ++ [("Reports", optTruthy none)] },
        some "r1") :=
  ⟨(claim7_resolve_or_create_amended exampleDrive7 "Reports" none
      (by decide)).1 "r1",
   (claim7_resolve_or_create_amended exampleDrive7 "Reports" none
      (by decide)).2 "r1" [] (by rfl)⟩

/-- Claim C10: a non-empty path whose segments are all empty after
trimming makes the Folder Path Resolver return its `rootParentId`
argument unchanged without touching the backend (no query and no create
call is issued — the state, including both call logs, is unchanged);
consequently a suggestion whose `newFolder` is such a string takes the
rename-only path and is recorded with status `partial` (when the rename
call succeeds) even though no folder creation failed. -/
theorem claim10_blank_path (path : String) (parent : Option String)
    (st : DriveState) (hne : path ≠ "")
    (hsegs : ∀ seg ∈ splitSlash path, pyStripS seg = "") :
    create_nested_folders st path parent = (st, parent) ∧
    (∀ (sg : Suggestion) (prev : List String) (st2 : DriveState),
      sg.newFolder = some path →
      getParents st sg.id = some prev →
      updateFile st sg.id sg.newName none [] = some st2 →
      (processSuggestion st sg).2.1.status = "partial") := by
  have hgo : ∀ (segs : List String), (∀ seg ∈ segs, pyStripS seg = "") →
      ∀ (stx : DriveState) (cur : Option String),
        nestedGo stx cur segs = (stx, some cur) := by
    intro segs
    induction segs with
    | nil => intro _ stx cur; rfl
    | cons s rest ih =>
      intro hs stx cur
      have h1 : pyStripS s = "" := hs s (by simp)
      simp only [nestedGo, h1, if_pos]
      exact ih (fun x hx => hs x (by simp [hx])) stx cur
  have hres : create_nested_folders st path parent = (st, parent) := by
    unfold create_nested_folders
    rw [if_neg hne]
    rw [hgo (splitSlash path) hsegs st parent]
  refine ⟨hres, ?_⟩
  intro sg prev st2 hnf hgp hup
  have hres2 : create_nested_folders st path none = (st, none) := by
    unfold create_nested_folders
    rw [if_neg hne]
    rw [hgo (splitSlash path) hsegs st none]
  unfold processSuggestion
  rw [hgp]
  dsimp only
  rw [hnf]
  have hot : optTruthy (some path) = some path := by
    simp [optTruthy, hne]
  rw [hot]
  dsimp only
  rw [hres2]
  dsimp only
  rw [hup]
  rfl

theorem claim10_witness :
    create_nested_folders exampleDrive1 "/" none = (exampleDrive1, none) ∧
    (processSuggestion exampleDrive1
      ⟨"f1", "a.txt", "B.txt", some "/", "file", "r"⟩).2.1.status = "partial" := by
  have h := claim10_blank_path "/" none exampleDrive1 (by decide) (by decide)
  refine ⟨h.1, ?_⟩
  exact h.2 ⟨"f1", "a.txt", "B.txt", some "/", "file", "r"⟩ ["p"] _ rfl (by rfl) (by rfl)

theorem nestedGo_append (a : List String) : ∀ (st : DriveState)
    (cur : Option String) (b : List String),
    nestedGo st cur (a ++ b) =
      (match nestedGo st cur a with
       | (st1, some c) => nestedGo st1 c b
       | (st1, none) => (st1, none)) := by
  induction a with
  | nil => intro st cur b; rfl
  | cons s rest ih =>
    intro st cur b
    show nestedGo st cur (s :: (rest ++ b)) = _
    by_cases hs : pyStripS s = ""
    · simp only [nestedGo, hs, if_pos]
      exact ih st cur b
    · simp only [nestedGo, hs, if_neg, Bool.false_eq_true]
      cases hc : (create_folder_if_not_exists st (pyStripS s) cur).2 with
      | none => rfl
      | some fid =>
        by_cases hf : fid = ""
        · simp [hf]
        · simp only [hf, if_neg, Bool.false_eq_true]
          exact ih _ (some fid) b

/-- Claim C8: if any segment's creation fails, the Folder Path Resolver
returns null; the Plan Executor then applies the rename-only update and
records that suggestion with status `partial` — never `error` —
provided the rename call itself succeeds. -/
theorem claim8_partial_on_resolver_failure :
    (∀ (st : DriveState) (path : String) (parent : Option String)
       (a : List String) (seg : String) (b : List String)
       (st1 : DriveState) (c : Option String),
      path ≠ "" →
      splitSlash path = a ++ seg :: b →
      nestedGo st parent a = (st1, some c) →
      pyStripS seg ≠ "" →
      (create_folder_if_not_exists st1 (pyStripS seg) c).2 = none →
      (create_nested_folders st path parent).2 = none) ∧
    (∀ (st : DriveState) (sg : Suggestion) (pth : String)
       (prev : List String) (st2 : DriveState),
      sg.newFolder = some pth → pth ≠ "" →
      getParents st sg.id = some prev →
      (create_nested_folders st pth none).2 = none →
      updateFile (create_nested_folders st pth none).1 sg.id sg.newName
        none [] = some st2 →
      (processSuggestion st sg).2.1.status = "partial") := by
  constructor
  · intro st path parent a seg b st1 c hne hsplit hgo hseg hfail
    unfold create_nested_folders
    rw [if_neg hne, hsplit, nestedGo_append, hgo]
    dsimp only
    show (match nestedGo st1 c (seg :: b) with
          | (stx, some cur) => (stx, cur)
          | (stx, none) => (stx, none)).2 = none
    simp only [nestedGo, hseg, if_neg, Bool.false_eq_true]
    rw [hfail]
    dsimp only
    split
    · rename_i stx cur heq
      rw [Prod.mk.injEq] at heq
      exact absurd heq.2 (by simp)
    · rfl
  · intro st sg pth prev st2 hnf hne hgp hcnone hup
    unfold processSuggestion
    rw [hgp]
    dsimp only
    rw [hnf]
    have hot : optTruthy (some pth) = some pth := by simp [optTruthy, hne]
    rw [hot]
    dsimp only
    rw [hcnone, hup]
    rfl

theorem claim8_witness :
    (create_nested_folders exampleDrive8 "NewFolder" none).2 = none ∧
    (processSuggestion exampleDrive8
      ⟨"f1", "a.txt", "A.txt", some "NewFolder", "file", "r"⟩).2.1.status =
        "partial" := by
  constructor
  · exact claim8_partial_on_resolver_failure.1 exampleDrive8 "NewFolder" none
      [] "NewFolder" [] exampleDrive8 none (by decide) (by rfl) (by rfl)
      (by decide) (by rfl)
  · exact claim8_partial_on_resolver_failure.2 exampleDrive8
      ⟨"f1", "a.txt", "A.txt", some "NewFolder", "file", "r"⟩ "NewFolder"
      ["p"] _ rfl (by decide) (by rfl) (by rfl) (by rfl)

theorem cleanupStep_some (st : DriveState) (fid : String) (st2 : DriveState)
    (d : String) (h : cleanupStep st fid = (st2, some d)) :
    d = fid ∧ listChildrenPage st fid = [] ∧ st2 = deleteFile st fid := by
  unfold cleanupStep at h
  by_cases h1 : fid ∈ st.listFailList
  · rw [if_pos h1] at h
    rw [Prod.mk.injEq] at h
    exact absurd h.2 (by simp)
  · rw [if_neg h1] at h
    by_cases h2 : listChildrenPage st fid = []
    · rw [if_pos h2] at h
      by_cases h3 : fid ∈ st.deleteFailList
      · rw [if_pos h3] at h
        rw [Prod.mk.injEq] at h
        exact absurd h.2 (by simp)
      · rw [if_neg h3] at h
        cases hl : st.files.lookup fid with
        | none =>
          rw [hl] at h
          rw [Prod.mk.injEq] at h
          exact absurd h.2 (by simp)
        | some f =>
          rw [hl] at h
          rw [Prod.mk.injEq] at h
          obtain ⟨ha, hb⟩ := h
          cases hb
          exact ⟨rfl, h2, ha.symm⟩
    · rw [if_neg h2] at h
      rw [Prod.mk.injEq] at h
      exact absurd h.2 (by simp)

theorem phase2_deleted_sub (fs : List String) : ∀ (st : DriveState),
    ∀ x ∈ (phase2 st fs).2, x ∈ fs := by
  induction fs with
  | nil => intro st x hx; simp [phase2] at hx
  | cons f fs ih =>
    intro st x hx
    simp only [phase2] at hx
    cases hc : (cleanupStep st f).2 with
    | none =>
      rw [hc] at hx
      dsimp only at hx
      exact List.mem_cons_of_mem f (ih _ x hx)
    | some dd =>
      rw [hc] at hx
      dsimp only at hx
      rcases List.mem_cons.mp hx with h1 | h1
      · have hstep : cleanupStep st f = ((cleanupStep st f).1, some dd) := by
          rw [← hc]
        have hd := cleanupStep_some st f (cleanupStep st f).1 dd hstep
        rw [h1, hd.1]
        exact List.mem_cons_self f fs
      · exact List.mem_cons_of_mem f (ih _ x h1)

theorem mem_dedup_foldl (l : List String) : ∀ (acc : List String) (x : String),
    x ∈ l.foldl (fun a y => if a.contains y then a else a ++ [y]) acc →
    x ∈ acc ∨ x ∈ l := by
  induction l with
  | nil => intro acc x hx; exact Or.inl hx
  | cons y l ih =>
    intro acc x hx
    simp only [List.foldl_cons] at hx
    rcases ih _ x hx with h1 | h1
    · by_cases hy : acc.contains y = true
      · rw [if_pos hy] at h1
        exact Or.inl h1
      · rw [if_neg hy] at h1
        rcases List.mem_append.mp h1 with h2 | h2
        · exact Or.inl h2
        · simp at h2
          subst h2
          exact Or.inr (by simp)
    · exact Or.inr (by simp [h1])

/-- Claim C1: in every batch run by the Plan Executor, phase-2 cleanup
deletes a folder only when the backend listing of its non-trashed
children, taken in the state in which that folder's cleanup step runs,
is empty; and the set of folders considered for deletion contains only
identifiers recorded as parents of some entry processed in the batch
(the touched-folders accumulator, fed by the per-suggestion parent
fetches). -/
theorem claim1_cleanup_safety :
    (∀ (st : DriveState) (suggestions : List Suggestion),
      ∀ fid ∈ (execute_rename st suggestions).deleted,
        fid ∈ (execute_rename st suggestions).touched) ∧
    (∀ (st : DriveState) (suggestions : List Suggestion),
      ∀ p ∈ (execute_rename st suggestions).touched,
        p ∈ (execute_rename st suggestions).fetched.flatten) ∧
    (∀ (st : DriveState) (fid : String) (st2 : DriveState) (d : String),
      cleanupStep st fid = (st2, some d) →
      d = fid ∧ listChildrenPage st fid = [] ∧ st2 = deleteFile st fid) := by
  refine ⟨?_, ?_, cleanupStep_some⟩
  · intro st suggestions fid hfid
    exact phase2_deleted_sub _ _ fid hfid
  · intro st suggestions p hp
    have := mem_dedup_foldl ((phase1 st suggestions).2.2.flatten) [] p hp
    rcases this with h1 | h1
    · simp at h1
    · exact h1

theorem claim1_witness :
    ("p" ∈ (execute_rename exampleDrive1
        [⟨"f1", "a.txt", "A.txt", some "Archive", "file", "r"⟩]).touched) ∧
    ("p" ∈ (execute_rename exampleDrive1
        [⟨"f1", "a.txt", "A.txt", some "Archive", "file", "r"⟩]).fetched.flatten) ∧
    ("p" = "p" ∧
      listChildrenPage
        { emptyDrive with files := [("p", ⟨"P", folderMimeType, [], false⟩)] }
        "p" = [] ∧
      deleteFile
        { emptyDrive with files := [("p", ⟨"P", folderMimeType, [], false⟩)] }
        "p" =
        deleteFile
          { emptyDrive with files := [("p", ⟨"P", folderMimeType, [], false⟩)] }
          "p") := by
  refine ⟨?_, ?_, ?_⟩
  · exact claim1_cleanup_safety.1 exampleDrive1
      [⟨"f1", "a.txt", "A.txt", some "Archive", "file", "r"⟩] "p" (by decide)
  · exact claim1_cleanup_safety.2.1 exampleDrive1
      [⟨"f1", "a.txt", "A.txt", some "Archive", "file", "r"⟩] "p" (by decide)
  · have h := claim1_cleanup_safety.2.2
      { emptyDrive with files := [("p", ⟨"P", folderMimeType, [], false⟩)] }
      "p"
      (deleteFile
        { emptyDrive with files := [("p", ⟨"P", folderMimeType, [], false⟩)] }
        "p")
      "p" (by rfl)
    exact ⟨h.1.symm, h.2.1, by rfl⟩

theorem fPrefix_ne_empty (n : Nat) : ("f" ++ toString n) ≠ "" := by
  intro h
  have h2 := congrArg String.data h
  rw [String.data_append] at h2
  simp [String.data] at h2

theorem cfine_faillists (st : DriveState) (nm : String) (cur : Option String) :
    (create_folder_if_not_exists st nm cur).1.queryFailList = st.queryFailList ∧
    (create_folder_if_not_exists st nm cur).1.createFailList = st.createFailList := by
  unfold create_folder_if_not_exists
  dsimp only
  split
  · exact ⟨rfl, rfl⟩
  · split
    · exact ⟨rfl, rfl⟩
    · split
      · exact ⟨rfl, rfl⟩
      · exact ⟨rfl, rfl⟩

theorem cfine_files_ext (st : DriveState) (nm : String) (cur : Option String) :
    ∃ ext, (create_folder_if_not_exists st nm cur).1.files = st.files ++ ext := by
  unfold create_folder_if_not_exists
  dsimp only
  split
  · exact ⟨[], by simp⟩
  · split
    · exact ⟨[], by simp⟩
    · split
      · exact ⟨[], by simp⟩
      · exact ⟨[("f" ++ toString st.nextId,
          (⟨nm, folderMimeType, (optTruthy cur).toList, false⟩ : DriveFile))], rfl⟩

theorem cfine_ids_nonempty (st : DriveState) (nm : String) (cur : Option String)
    (hne : ∀ pr ∈ st.files, pr.1 ≠ "") :
    ∀ pr ∈ (create_folder_if_not_exists st nm cur).1.files, pr.1 ≠ "" := by
  unfold create_folder_if_not_exists
  dsimp only
  split
  · exact hne
  · split
    · exact hne
    · split
      · exact hne
      · intro pr hpr
        rcases List.mem_append.mp hpr with h1 | h1
        · exact hne pr h1
        · simp only [List.mem_singleton] at h1
          subst h1
          exact fPrefix_ne_empty st.nextId

theorem folderQuery_append (a b : List (String × DriveFile)) (nm : String)
    (p : Option String) :
    folderQuery (a ++ b) nm p = folderQuery a nm p ++ folderQuery b nm p := by
  simp [folderQuery, List.filter_append]

theorem folderQuery_new (nid : String) (nm : String) (p : Option String) :
    folderQuery [(nid, (⟨nm, folderMimeType, p.toList, false⟩ : DriveFile))] nm p =
      [nid] := by
  cases p <;> simp [folderQuery]

theorem cfine_success (st : DriveState) (nm : String) (cur : Option String)
    (hq : st.queryFailList = []) (hc : st.createFailList = [])
    (hne : ∀ pr ∈ st.files, pr.1 ≠ "") :
    ∃ fid, (create_folder_if_not_exists st nm cur).2 = some fid ∧ fid ≠ "" ∧
      (folderQuery (create_folder_if_not_exists st nm cur).1.files nm
        (optTruthy cur)).head? = some fid := by
  unfold create_folder_if_not_exists
  dsimp only
  rw [if_neg (by simp [hq])]
  cases hfq : folderQuery st.files nm (optTruthy cur) with
  | cons fid rest =>
    refine ⟨fid, rfl, ?_, ?_⟩
    · have hmem : fid ∈ folderQuery st.files nm (optTruthy cur) := by
        rw [hfq]; simp
      simp only [folderQuery, List.mem_map] at hmem
      obtain ⟨pr, hpr, hf⟩ := hmem
      rw [List.mem_filter] at hpr
      rw [← hf]
      exact hne pr hpr.1
    · show (folderQuery st.files nm (optTruthy cur)).head? = some fid
      rw [hfq]
      rfl
  | nil =>
    rw [if_neg (by simp [hc])]
    refine ⟨"f" ++ toString st.nextId, rfl, fPrefix_ne_empty st.nextId, ?_⟩
    show (folderQuery (st.files ++ [("f" ++ toString st.nextId,
      (⟨nm, folderMimeType, (optTruthy cur).toList, false⟩ : DriveFile))]) nm
        (optTruthy cur)).head? = some ("f" ++ toString st.nextId)
    rw [folderQuery_append, hfq, folderQuery_new]
    rfl

theorem cfine_found (st : DriveState) (nm : String) (cur : Option String)
    (fid : String) (hq : st.queryFailList = [])
    (hhead : (folderQuery st.files nm (optTruthy cur)).head? = some fid) :
    create_folder_if_not_exists st nm cur =
      ({ st with queryLog := st.queryLog ++ [(nm, optTruthy cur)] }, some fid) := by
  unfold create_folder_if_not_exists
  dsimp only
  rw [if_neg (by simp [hq])]
  cases hfq : folderQuery st.files nm (optTruthy cur) with
  | nil => rw [hfq] at hhead; exact absurd hhead (by simp)
  | cons a rest =>
    rw [hfq] at hhead
    simp only [List.head?_cons, Option.some.injEq] at hhead
    rw [hhead]

theorem nestedGo_core (segs : List String) : ∀ (st : DriveState) (cur : Option String),
    (∃ ext, (nestedGo st cur segs).1.files = st.files ++ ext) ∧
    (nestedGo st cur segs).1.queryFailList = st.queryFailList ∧
    (nestedGo st cur segs).1.createFailList = st.createFailList ∧
    ((∀ pr ∈ st.files, pr.1 ≠ "") →
      ∀ pr ∈ (nestedGo st cur segs).1.files, pr.1 ≠ "") := by
  induction segs with
  | nil => intro st cur; exact ⟨⟨[], by simp [nestedGo]⟩, rfl, rfl, fun h => h⟩
  | cons s rest ih =>
    intro st cur
    simp only [nestedGo]
    by_cases hs : pyStripS s = ""
    · rw [if_pos hs]
      exact ih st cur
    · rw [if_neg hs]
      cases hc : (create_folder_if_not_exists st (pyStripS s) cur).2 with
      | none =>
        dsimp only
        exact ⟨cfine_files_ext st (pyStripS s) cur,
          (cfine_faillists st (pyStripS s) cur).1,
          (cfine_faillists st (pyStripS s) cur).2,
          cfine_ids_nonempty st (pyStripS s) cur⟩
      | some fid =>
        dsimp only
        by_cases hf : fid = ""
        · rw [if_pos hf]
          dsimp only
          exact ⟨cfine_files_ext st (pyStripS s) cur,
            (cfine_faillists st (pyStripS s) cur).1,
            (cfine_faillists st (pyStripS s) cur).2,
            cfine_ids_nonempty st (pyStripS s) cur⟩
        · rw [if_neg hf]
          obtain ⟨ha, hb, hcc, hd⟩ :=
            ih (create_folder_if_not_exists st (pyStripS s) cur).1 (some fid)
          refine ⟨?_, ?_, ?_, ?_⟩
          · obtain ⟨e1, he1⟩ := cfine_files_ext st (pyStripS s) cur
            obtain ⟨e2, he2⟩ := ha
            exact ⟨e1 ++ e2, by rw [he2, he1, List.append_assoc]⟩
          · rw [hb, (cfine_faillists st (pyStripS s) cur).1]
          · rw [hcc, (cfine_faillists st (pyStripS s) cur).2]
          · intro hne
            exact hd (cfine_ids_nonempty st (pyStripS s) cur hne)

theorem nestedGo_idem (segs : List String) : ∀ (st : DriveState)
    (cur : Option String) (st2 : DriveState),
    st.queryFailList = [] → st.createFailList = [] →
    (∀ pr ∈ st.files, pr.1 ≠ "") →
    st2.queryFailList = [] →
    (∃ ext, st2.files = (nestedGo st cur segs).1.files ++ ext) →
    (nestedGo st2 cur segs).2 = (nestedGo st cur segs).2 := by
  induction segs with
  | nil => intro st cur st2 _ _ _ _ _; rfl
  | cons s rest ih =>
    intro st cur st2 hq hcf hne hq2 hfiles
    simp only [nestedGo] at hfiles ⊢
    by_cases hs : pyStripS s = ""
    · rw [if_pos hs] at hfiles
      rw [if_pos hs, if_pos hs]
      exact ih st cur st2 hq hcf hne hq2 hfiles
    · rw [if_neg hs] at hfiles
      rw [if_neg hs, if_neg hs]
      obtain ⟨fid, hfid, hfne, hhead⟩ := cfine_success st (pyStripS s) cur hq hcf hne
      rw [hfid] at hfiles ⊢
      dsimp only at hfiles ⊢
      rw [if_neg hfne] at hfiles ⊢
      set stA := (create_folder_if_not_exists st (pyStripS s) cur).1 with hstA
      obtain ⟨e2, he2⟩ := (nestedGo_core rest stA (some fid)).1
      obtain ⟨e3, he3⟩ := hfiles
      have hhead2 : (folderQuery st2.files (pyStripS s) (optTruthy cur)).head? =
          some fid := by
        rw [he3, he2]
        rw [folderQuery_append, folderQuery_append]
        cases hfa : folderQuery stA.files (pyStripS s) (optTruthy cur) with
        | nil => rw [hfa] at hhead; exact absurd hhead (by simp)
        | cons a tail =>
          rw [hfa] at hhead
          simp only [List.head?_cons, Option.some.injEq] at hhead
          subst hhead
          rfl
      have hfound := cfine_found st2 (pyStripS s) cur fid hq2 hhead2
      rw [hfound]
      dsimp only
      rw [if_neg hfne]
      apply ih stA (some fid)
      · exact (cfine_faillists st (pyStripS s) cur).1.trans hq
      · exact (cfine_faillists st (pyStripS s) cur).2.trans hcf
      · exact cfine_ids_nonempty st (pyStripS s) cur hne
      · exact hq2
      · exact ⟨e3, by rw [← he3]⟩

theorem cfine_inv (st : DriveState) (nm : String) (cur : Option String)
    (hq : st.queryFailList = []) (hc : st.createFailList = [])
    (hgood : ∀ pr ∈ st.createLog,
      folderQuery st.files pr.1 pr.2 ≠ ([] : List String))
    (hnd : st.createLog.Nodup) :
    (∀ pr ∈ (create_folder_if_not_exists st nm cur).1.createLog,
      folderQuery (create_folder_if_not_exists st nm cur).1.files pr.1 pr.2 ≠ []) ∧
    (create_folder_if_not_exists st nm cur).1.createLog.Nodup := by
  unfold create_folder_if_not_exists
  dsimp only
  rw [if_neg (by simp [hq])]
  cases hfq : folderQuery st.files nm (optTruthy cur) with
  | cons fid rest => exact ⟨hgood, hnd⟩
  | nil =>
    rw [if_neg (by simp [hc])]
    constructor
    · intro pr hpr
      rcases List.mem_append.mp hpr with h1 | h1
      · have hng := hgood pr h1
        rw [folderQuery_append]
        intro hcontra
        rw [List.append_eq_nil] at hcontra
        exact hng hcontra.1
      · simp only [List.mem_singleton] at h1
        subst h1
        rw [folderQuery_append, hfq, folderQuery_new]
        simp
    · apply List.Nodup.append hnd (List.nodup_singleton _)
      intro x hx hx2
      simp only [List.mem_singleton] at hx2
      subst hx2
      exact (hgood _ hx) hfq

theorem nestedGo_inv (segs : List String) : ∀ (st : DriveState) (cur : Option String),
    st.queryFailList = [] → st.createFailList = [] →
    (∀ pr ∈ st.createLog, folderQuery st.files pr.1 pr.2 ≠ ([] : List String)) →
    st.createLog.Nodup →
    (∀ pr ∈ (nestedGo st cur segs).1.createLog,
      folderQuery (nestedGo st cur segs).1.files pr.1 pr.2 ≠ []) ∧
    (nestedGo st cur segs).1.createLog.Nodup := by
  induction segs with
  | nil => intro st cur _ _ hg hn; exact ⟨hg, hn⟩
  | cons s rest ih =>
    intro st cur hq hc hg hn
    simp only [nestedGo]
    by_cases hs : pyStripS s = ""
    · rw [if_pos hs]
      exact ih st cur hq hc hg hn
    · rw [if_neg hs]
      have hinv := cfine_inv st (pyStripS s) cur hq hc hg hn
      cases hcc : (create_folder_if_not_exists st (pyStripS s) cur).2 with
      | none => dsimp only; exact hinv
      | some fid =>
        dsimp only
        by_cases hf : fid = ""
        · rw [if_pos hf]
          exact hinv
        · rw [if_neg hf]
          exact ih (create_folder_if_not_exists st (pyStripS s) cur).1 (some fid)
            ((cfine_faillists st (pyStripS s) cur).1.trans hq)
            ((cfine_faillists st (pyStripS s) cur).2.trans hc)
            hinv.1 hinv.2

theorem cnf_state (st : DriveState) (path : String) (parent : Option String) :
    (create_nested_folders st path parent).1 =
      if path = "" then st else (nestedGo st parent (splitSlash path)).1 := by
  unfold create_nested_folders
  by_cases hp : path = ""
  · rw [if_pos hp, if_pos hp]
  · rw [if_neg hp, if_neg hp]
    cases hres : nestedGo st parent (splitSlash path) with
    | mk a b =>
      cases b <;> rfl

theorem resolveAll_inv (paths : List (String × Option String)) : ∀ (st : DriveState),
    st.queryFailList = [] → st.createFailList = [] →
    (∀ pr ∈ st.createLog, folderQuery st.files pr.1 pr.2 ≠ ([] : List String)) →
    st.createLog.Nodup →
    (resolveAll st paths).createLog.Nodup := by
  induction paths with
  | nil => intro st _ _ _ hn; exact hn
  | cons p ps ih =>
    intro st hq hc hg hn
    show (resolveAll (create_nested_folders st p.1 p.2).1 ps).createLog.Nodup
    by_cases hp : p.1 = ""
    · have heq : (create_nested_folders st p.1 p.2).1 = st := by
        rw [cnf_state, if_pos hp]
      rw [heq]
      exact ih st hq hc hg hn
    · have heq : (create_nested_folders st p.1 p.2).1 =
          (nestedGo st p.2 (splitSlash p.1)).1 := by
        rw [cnf_state, if_neg hp]
      rw [heq]
      have hinv := nestedGo_inv (splitSlash p.1) st p.2 hq hc hg hn
      exact ih _ ((nestedGo_core _ st p.2).2.1.trans hq)
        ((nestedGo_core _ st p.2).2.2.1.trans hc) hinv.1 hinv.2

/-- Claim C6: within one invocation over a backend not mutated by
external writers (and whose calls do not fail), resolving the same
logical folder path twice returns the same folder identifier both
times; and across any sequence of path resolutions performed in the
invocation, at most one remote create-folder call is issued for any
given (name, parent) pair — the create-call log never contains a
duplicate pair. -/
theorem claim6_resolver_idempotent (st : DriveState) (path : String)
    (parent : Option String) (paths : List (String × Option String))
    (hq : st.queryFailList = []) (hc : st.createFailList = [])
    (hne : ∀ pr ∈ st.files, pr.1 ≠ "") (hlog : st.createLog = []) :
    (create_nested_folders (create_nested_folders st path parent).1 path parent).2 =
      (create_nested_folders st path parent).2 ∧
    (resolveAll st paths).createLog.Nodup := by
  constructor
  · by_cases hp : path = ""
    · simp [create_nested_folders, hp]
    · have hsnd : ∀ (stx : DriveState),
          (create_nested_folders stx path parent).2 =
            (match (nestedGo stx parent (splitSlash path)).2 with
             | some c => c
             | none => none) := by
        intro stx
        unfold create_nested_folders
        rw [if_neg hp]
        cases hres : nestedGo stx parent (splitSlash path) with
        | mk a b =>
          cases b <;> rfl
      rw [hsnd, hsnd]
      have hst1 : (create_nested_folders st path parent).1 =
          (nestedGo st parent (splitSlash path)).1 := by
        rw [cnf_state, if_neg hp]
      rw [hst1]
      have hid := nestedGo_idem (splitSlash path) st parent
        (nestedGo st parent (splitSlash path)).1 hq hc hne
        ((nestedGo_core _ st parent).2.1.trans hq)
        ⟨[], by simp⟩
      rw [hid]
  · exact resolveAll_inv paths st hq hc
      (by rw [hlog]; intro pr hpr; simp at hpr)
      (by rw [hlog]; exact List.nodup_nil)

theorem claim6_witness :
    (create_nested_folders (create_nested_folders emptyDrive "A/B" none).1
        "A/B" none).2 = (create_nested_folders emptyDrive "A/B" none).2 ∧
    (resolveAll emptyDrive [("A/B", none), ("A/B", none)]).createLog.Nodup :=
  claim6_resolver_idempotent emptyDrive "A/B" none
    [("A/B", none), ("A/B", none)] (by rfl) (by rfl)
    (by intro pr hpr; simp [emptyDrive] at hpr) (by rfl)
